import Mathlib

set_option maxRecDepth 100000

/-!
Verification development for the QA-report generator (template-driven HTML
report renderer, sprint selector, work-item aggregator, suite-index builder
and Confluence publisher).

Strings are modelled as `List Char`.  JavaScript string methods used by the
source (`replace` with literal and with the specific regexes appearing in the
code, `trim`, `toLowerCase`, `split`, `localeCompare` via an abstract
comparator) are embedded below.  JavaScript `String.prototype.replace`
substitution patterns (`$$`, `$&`, the backtick form and the quote form) are
modelled faithfully by `expandRepl`.  `toLowerCase`/`toLocaleLowerCase("en-US")`
is modelled by ASCII `Char.toLower`; non-ASCII simple case mappings are out of
scope.  Numbers are modelled as `Int` (the work-item ids and page versions in
play are integers); `Date` values are carried as epoch milliseconds.
-/

/-- The character class of the JavaScript whitespace escape (as used by the
source regexes over `\s` and by `String.prototype.trim`). -/
def isJsWs (c : Char) : Bool :=
  let n := c.toNat
  n = 32 || n = 9 || n = 10 || n = 11 || n = 12 || n = 13 ||
  n = 160 || n = 5760 || (8192 ≤ n && n ≤ 8202) || n = 8232 ||
  n = 8233 || n = 8239 || n = 8287 || n = 12288 || n = 65279

/-- Word characters for the regex word-boundary assertion. -/
def isWordChar (c : Char) : Bool :=
  (Char.ofNat 97 ≤ c && c ≤ Char.ofNat 122) ||
  (Char.ofNat 65 ≤ c && c ≤ Char.ofNat 90) ||
  (Char.ofNat 48 ≤ c && c ≤ Char.ofNat 57) || c = Char.ofNat 95

def dollarSign : Char := '$'

def dquoteChar : Char := Char.ofNat 34

def squoteChar : Char := Char.ofNat 39

def btickChar : Char := Char.ofNat 96

def openBrace : Char := Char.ofNat 123

def closeBrace : Char := Char.ofNat 125

def bslashChar : Char := Char.ofNat 92

/-- JavaScript `String.prototype.trim`. -/
def jsTrim (l : List Char) : List Char :=
  ((l.dropWhile isJsWs).reverse.dropWhile isJsWs).reverse

/-- Case-insensitive prefix test (the `i` regex flag over the ASCII patterns
appearing in the source). -/
def isPrefixOfCI : List Char → List Char → Bool
  | [], _ => true
  | _ :: _, [] => false
  | p :: ps, c :: cs => (p.toLower = c.toLower) && isPrefixOfCI ps cs

/-- Split a string at the first occurrence of a literal pattern:
`splitFirst pat l = some (a, b)` with `l = a ++ pat ++ b` and `a` minimal. -/
def splitFirst (pat : List Char) : List Char → Option (List Char × List Char)
  | [] => if pat.isPrefixOf ([] : List Char) then some ([], []) else none
  | c :: rest =>
    if pat.isPrefixOf (c :: rest) then some ([], (c :: rest).drop pat.length)
    else
      match splitFirst pat rest with
      | none => none
      | some (a, b) => some (c :: a, b)

/-- Split a string at the first case-insensitive occurrence of a pattern,
returning the prefix, the matched segment (original characters) and the
suffix. -/
def splitFirstCI (pat : List Char) :
    List Char → Option (List Char × List Char × List Char)
  | [] => if pat = [] then some ([], [], []) else none
  | c :: rest =>
    if isPrefixOfCI pat (c :: rest) then
      some ([], (c :: rest).take pat.length, (c :: rest).drop pat.length)
    else
      match splitFirstCI pat rest with
      | none => none
      | some (a, m, b) => some (c :: a, m, b)

/-- JavaScript replacement-string substitution: `$$` is a dollar sign, `$&`
the matched text, a dollar followed by a backtick the portion before the
match, a dollar followed by a quote the portion after the match; every other
dollar is literal (the regexes in the source have no capture groups). -/
def expandRepl (matched bef aft : List Char) : List Char → List Char
  | [] => []
  | [c] => [c]
  | c :: d :: rest2 =>
    if c = dollarSign then
      if d = dollarSign then dollarSign :: expandRepl matched bef aft rest2
      else if d = '&' then matched ++ expandRepl matched bef aft rest2
      else if d = btickChar then bef ++ expandRepl matched bef aft rest2
      else if d = squoteChar then aft ++ expandRepl matched bef aft rest2
      else c :: expandRepl matched bef aft (d :: rest2)
    else c :: expandRepl matched bef aft (d :: rest2)

/-- Global literal replacement (JavaScript `replace` with a `g`-flagged
pattern that matches a fixed string, as produced by `escapeRegExp`):
leftmost non-overlapping matches, each replaced through `expandRepl`.
`bef` is the already-processed part of the original string.  The fuel
argument (structural recursion, so that the kernel can evaluate the
function) is irrelevant as long as it is at least the string length;
`replaceAllGo` instantiates it. -/
def replaceAllFuel (pat repl : List Char) :
    Nat → List Char → List Char → List Char
  | 0, _, l => l
  | _ + 1, _, [] => []
  | fuel + 1, bef, c :: rest =>
    if pat ≠ [] ∧ pat.isPrefixOf (c :: rest) then
      expandRepl pat bef ((c :: rest).drop pat.length) repl ++
        replaceAllFuel pat repl fuel (bef ++ pat) ((c :: rest).drop pat.length)
    else c :: replaceAllFuel pat repl fuel (bef ++ [c]) rest

def replaceAllGo (pat repl bef l : List Char) : List Char :=
  replaceAllFuel pat repl l.length bef l

theorem replaceAllFuel_irrel (pat repl : List Char) :
    ∀ fuel1 fuel2 bef l, l.length ≤ fuel1 → l.length ≤ fuel2 →
    replaceAllFuel pat repl fuel1 bef l = replaceAllFuel pat repl fuel2 bef l := by
  intro fuel1
  induction fuel1 with
  | zero =>
    intro fuel2 bef l h1 _
    have : l = [] := List.length_eq_zero.mp (by omega)
    subst this
    cases fuel2 <;> rfl
  | succ f1 ih =>
    intro fuel2 bef l h1 h2
    cases l with
    | nil => cases fuel2 <;> rfl
    | cons c rest =>
      cases fuel2 with
      | zero => simp at h2
      | succ f2 =>
        simp only [replaceAllFuel]
        by_cases h : pat ≠ [] ∧ pat.isPrefixOf (c :: rest) = true
        · rw [if_pos h, if_pos h]
          have hplen : 1 ≤ pat.length := by
            cases hp : pat with
            | nil => exact absurd hp h.1
            | cons x xs => simp
          have hlen : ((c :: rest).drop pat.length).length ≤ rest.length := by
            simp only [List.length_drop, List.length_cons]
            omega
          simp only [List.length_cons] at h1 h2
          rw [ih f2 (bef ++ pat) ((c :: rest).drop pat.length)
            (by omega) (by omega)]
        · rw [if_neg h, if_neg h]
          simp only [List.length_cons] at h1 h2
          rw [ih f2 (bef ++ [c]) rest (by omega) (by omega)]

theorem replaceAllGo_nil (pat repl bef : List Char) :
    replaceAllGo pat repl bef [] = [] := rfl

theorem replaceAllGo_cons (pat repl bef : List Char) (c : Char)
    (rest : List Char) :
    replaceAllGo pat repl bef (c :: rest) =
      if pat ≠ [] ∧ pat.isPrefixOf (c :: rest) then
        expandRepl pat bef ((c :: rest).drop pat.length) repl ++
          replaceAllGo pat repl (bef ++ pat) ((c :: rest).drop pat.length)
      else c :: replaceAllGo pat repl (bef ++ [c]) rest := by
  show replaceAllFuel pat repl (rest.length + 1) bef (c :: rest) = _
  simp only [replaceAllFuel]
  by_cases h : pat ≠ [] ∧ pat.isPrefixOf (c :: rest) = true
  · rw [if_pos h, if_pos h]
    have hplen : 1 ≤ pat.length := by
      cases hp : pat with
      | nil => exact absurd hp h.1
      | cons x xs => simp
    rw [replaceAllGo]
    rw [replaceAllFuel_irrel pat repl rest.length
      ((c :: rest).drop pat.length).length (bef ++ pat)
      ((c :: rest).drop pat.length)
      (by simp only [List.length_drop, List.length_cons]; omega)
      (le_refl _)]
  · rw [if_neg h, if_neg h]
    rfl

/-- JavaScript `source.replace(/literal/g, repl)`. -/
def replaceAllLit (pat repl l : List Char) : List Char :=
  replaceAllGo pat repl [] l

/-- JavaScript `source.replace(pat, repl)` with a plain-string pattern:
only the first occurrence is replaced (with substitution-pattern
expansion); no occurrence leaves the string unchanged. -/
def replaceFirstExpand (l pat repl : List Char) : List Char :=
  match splitFirst pat l with
  | none => l
  | some (a, b) => a ++ expandRepl pat a b repl ++ b

theorem splitFirst_eq_some {pat l a b : List Char}
    (h : splitFirst pat l = some (a, b)) : l = a ++ pat ++ b := by
  induction l generalizing a b with
  | nil =>
    simp only [splitFirst] at h
    by_cases hp : pat.isPrefixOf ([] : List Char)
    · have hpnil : pat = [] := by
        cases pat with
        | nil => rfl
        | cons x xs => simp [List.isPrefixOf] at hp
      rw [if_pos hp] at h
      simp only [Option.some.injEq, Prod.mk.injEq] at h
      simp [← h.1, ← h.2, hpnil]
    · rw [if_neg hp] at h
      exact absurd h (by simp)
  | cons c rest ih =>
    simp only [splitFirst] at h
    by_cases hp : pat.isPrefixOf (c :: rest)
    · rw [if_pos hp] at h
      simp only [Option.some.injEq, Prod.mk.injEq] at h
      obtain ⟨ha, hb⟩ := h
      have hpre : pat <+: (c :: rest) := by
        rwa [← List.isPrefixOf_iff_prefix]
      obtain ⟨t, ht⟩ := hpre
      rw [← ha, ← hb, List.nil_append, ← ht, List.drop_left]
    · rw [if_neg hp] at h
      cases hrec : splitFirst pat rest with
      | none => rw [hrec] at h; exact absurd h (by simp)
      | some p =>
        obtain ⟨a', b'⟩ := p
        rw [hrec] at h
        simp only [Option.some.injEq, Prod.mk.injEq] at h
        obtain ⟨ha, hb⟩ := h
        rw [← ha, ← hb]
        simp [ih hrec]

theorem isPrefixOfCI_length {pat l : List Char}
    (h : isPrefixOfCI pat l = true) : pat.length ≤ l.length := by
  induction pat generalizing l with
  | nil => simp
  | cons p ps ih =>
    cases l with
    | nil => simp [isPrefixOfCI] at h
    | cons c cs =>
      simp only [isPrefixOfCI, Bool.and_eq_true] at h
      simpa using ih h.2

theorem splitFirstCI_eq_some {pat l a m b : List Char}
    (h : splitFirstCI pat l = some (a, m, b)) :
    l = a ++ m ++ b ∧ m.length = pat.length := by
  induction l generalizing a m b with
  | nil =>
    simp only [splitFirstCI] at h
    by_cases hp : pat = []
    · rw [if_pos hp] at h
      simp only [Option.some.injEq, Prod.mk.injEq] at h
      simp [← h.1, ← h.2.1, ← h.2.2, hp]
    · rw [if_neg hp] at h
      exact absurd h (by simp)
  | cons c rest ih =>
    simp only [splitFirstCI] at h
    by_cases hp : isPrefixOfCI pat (c :: rest) = true
    · rw [if_pos hp] at h
      simp only [Option.some.injEq, Prod.mk.injEq] at h
      obtain ⟨ha, hm, hb⟩ := h
      have hlen : pat.length ≤ (c :: rest).length := isPrefixOfCI_length hp
      simp only [List.length_cons] at hlen
      constructor
      · rw [← ha, ← hm, ← hb]
        simp [List.take_append_drop]
      · rw [← hm]
        simp only [List.length_take, List.length_cons]
        omega
    · rw [if_neg hp] at h
      cases hrec : splitFirstCI pat rest with
      | none => rw [hrec] at h; exact absurd h (by simp)
      | some p =>
        obtain ⟨a', m', b'⟩ := p
        rw [hrec] at h
        simp only [Option.some.injEq, Prod.mk.injEq] at h
        obtain ⟨ha, hm, hb⟩ := h
        obtain ⟨ih1, ih2⟩ := ih hrec
        rw [← ha, ← hm, ← hb]
        constructor
        · simp [ih1]
        · exact ih2

theorem expandRepl_no_dollar {matched bef aft r : List Char}
    (h : dollarSign ∉ r) : expandRepl matched bef aft r = r := by
  induction r with
  | nil => rfl
  | cons c rest ih =>
    have hc : c ≠ dollarSign := fun hc => h (hc ▸ List.mem_cons_self c rest)
    have hrest : dollarSign ∉ rest := fun hm => h (List.mem_cons_of_mem c hm)
    cases rest with
    | nil => rfl
    | cons d rest2 =>
      rw [expandRepl, if_neg hc]
      exact congrArg (c :: ·) (ih hrest)

/-! ## Embedding of `src/utils/format.ts` -/

/-- The value type accepted by a template row (`TemplateValue` in
`src/utils/format.ts`): `string | number | Date | null | undefined`.
A number is either a finite integer or a non-finite value (`NaN`,
`Infinity`); a `Date` carries its validity and its ISO-8601 rendering
(timestamp-to-text formatting is orthogonal to every claim). -/
inductive TemplateValue where
  | undef : TemplateValue
  | null : TemplateValue
  | num (n : Int) : TemplateValue
  | nonfiniteNum : TemplateValue
  | str (s : List Char) : TemplateValue
  | date (valid : Bool) (iso : List Char) : TemplateValue

def MISSING_VALUE_TEXT : List Char := "N/A".toList

/-- `formatTemplateValue` from `src/utils/format.ts`. -/
def formatTemplateValue : TemplateValue → List Char
  | .undef => MISSING_VALUE_TEXT
  | .null => MISSING_VALUE_TEXT
  | .nonfiniteNum => MISSING_VALUE_TEXT
  | .num n => (toString n).toList
  | .date valid iso => if valid then iso else MISSING_VALUE_TEXT
  | .str s => if jsTrim s = [] then MISSING_VALUE_TEXT else jsTrim s

/-- A template row (`Record<string, TemplateValue>`): indexing a missing
key yields `undefined`, so a total function is the faithful model. -/
def TemplateRow : Type := List Char → TemplateValue

/-! ## Embedding of `src/reporting/htmlReport.ts` -/

def NO_WORK_ITEMS_MESSAGE : List Char := "No work items found".toList

def escapeHtmlChar (c : Char) : List Char :=
  if c = '&' then "&amp;".toList
  else if c = '<' then "&lt;".toList
  else if c = '>' then "&gt;".toList
  else if c = dquoteChar then "&quot;".toList
  else if c = squoteChar then "&#39;".toList
  else [c]

/-- `escapeHtml`: fixed entity substitution for the five reserved HTML
characters. -/
def escapeHtml (l : List Char) : List Char :=
  (l.map escapeHtmlChar).flatten

def trOpenLit : List Char := "<tr".toList

def trCloseLit : List Char := "</tr>".toList

/-- Whether the row regex `<tr\b[\s\S]*?<\/tr>` (with the `i` flag) can
start a match at the head of `l`: a case-insensitive `<tr` followed by a
word boundary. -/
def trOpenAt (l : List Char) : Bool :=
  isPrefixOfCI trOpenLit l &&
    (match l.drop 3 with
     | [] => true
     | d :: _ => !isWordChar d)

/-- Position of the first possible row start: `l = a ++ rest` with
`trOpenAt rest` and `a` minimal. -/
def findTrOpen : List Char → Option (List Char × List Char)
  | [] => none
  | c :: rest =>
    if trOpenAt (c :: rest) then some ([], c :: rest)
    else
      match findTrOpen rest with
      | none => none
      | some (a, r) => some (c :: a, r)

theorem findTrOpen_eq_some {l a r : List Char}
    (h : findTrOpen l = some (a, r)) : l = a ++ r ∧ trOpenAt r = true := by
  induction l generalizing a r with
  | nil => exact absurd h (by simp [findTrOpen])
  | cons c rest ih =>
    rw [findTrOpen] at h
    by_cases hp : trOpenAt (c :: rest) = true
    · rw [if_pos hp] at h
      simp only [Option.some.injEq, Prod.mk.injEq] at h
      rw [← h.1, ← h.2]
      exact ⟨rfl, hp⟩
    · rw [if_neg hp] at h
      cases hrec : findTrOpen rest with
      | none => rw [hrec] at h; exact absurd h (by simp)
      | some p =>
        obtain ⟨a', r'⟩ := p
        rw [hrec] at h
        simp only [Option.some.injEq, Prod.mk.injEq] at h
        obtain ⟨ih1, ih2⟩ := ih hrec
        rw [← h.1, ← h.2]
        exact ⟨by simp [ih1], ih2⟩

theorem trOpenAt_length {l : List Char} (h : trOpenAt l = true) :
    3 ≤ l.length := by
  rw [trOpenAt, Bool.and_eq_true] at h
  have := isPrefixOfCI_length h.1
  simpa [trOpenLit] using this

/-- All matches, in order, of the lazy row regex
`/<tr\b[\s\S]*?<\/tr>/gi`: each match runs from a `<tr` (with word
boundary) to the earliest following `</tr>`; scanning resumes after the
match.  Fuel-based structural recursion; `rowMatches` supplies enough
fuel. -/
def rowMatchesFuel : Nat → List Char → List (List Char)
  | 0, _ => []
  | fuel + 1, l =>
    match findTrOpen l with
    | none => []
    | some (_, rest) =>
      match splitFirstCI trCloseLit (rest.drop 3) with
      | none => []
      | some (mid, mclose, after) =>
        (rest.take 3 ++ mid ++ mclose) :: rowMatchesFuel fuel after

def rowMatches (l : List Char) : List (List Char) :=
  rowMatchesFuel l.length l

theorem findTrOpen_nil : findTrOpen ([] : List Char) = none := rfl

theorem rowMatchesFuel_bound {l a0 rest mid mclose after : List Char}
    (hf : findTrOpen l = some (a0, rest))
    (hs : splitFirstCI trCloseLit (rest.drop 3) = some (mid, mclose, after)) :
    after.length < l.length := by
  obtain ⟨hl, hopen⟩ := findTrOpen_eq_some hf
  obtain ⟨hr, hlen⟩ := splitFirstCI_eq_some hs
  have h3 : 3 ≤ rest.length := trOpenAt_length hopen
  have hd : (rest.drop 3).length = rest.length - 3 := by
    simp [List.length_drop]
  have hr' : (rest.drop 3).length =
      mid.length + (mclose.length + after.length) := by
    rw [hr]; simp
  have hc5 : trCloseLit.length = 5 := by decide
  have hll : l.length = a0.length + rest.length := by
    rw [hl]; simp
  omega

theorem rowMatchesFuel_irrel :
    ∀ fuel1 fuel2 l, l.length ≤ fuel1 → l.length ≤ fuel2 →
    rowMatchesFuel fuel1 l = rowMatchesFuel fuel2 l := by
  intro fuel1
  induction fuel1 with
  | zero =>
    intro fuel2 l h1 _
    have : l = [] := List.length_eq_zero.mp (by omega)
    subst this
    cases fuel2 with
    | zero => rfl
    | succ f2 => simp [rowMatchesFuel, findTrOpen_nil]
  | succ f1 ih =>
    intro fuel2 l h1 h2
    cases fuel2 with
    | zero =>
      have : l = [] := List.length_eq_zero.mp (by omega)
      subst this
      simp [rowMatchesFuel, findTrOpen_nil]
    | succ f2 =>
      simp only [rowMatchesFuel]
      cases hf : findTrOpen l with
      | none => rfl
      | some p =>
        obtain ⟨a0, rest⟩ := p
        dsimp only
        cases hs : splitFirstCI trCloseLit (rest.drop 3) with
        | none => rfl
        | some q =>
          obtain ⟨mid, mclose, after⟩ := q
          dsimp only
          have hb := rowMatchesFuel_bound hf hs
          rw [ih f2 after (by omega) (by omega)]

theorem rowMatches_eq (l : List Char) :
    rowMatches l =
      match findTrOpen l with
      | none => []
      | some (_, rest) =>
        match splitFirstCI trCloseLit (rest.drop 3) with
        | none => []
        | some (mid, mclose, after) =>
          (rest.take 3 ++ mid ++ mclose) :: rowMatches after := by
  cases hl : l with
  | nil => rfl
  | cons c r =>
    show rowMatchesFuel (r.length + 1) (c :: r) = _
    simp only [rowMatchesFuel]
    cases hf : findTrOpen (c :: r) with
    | none => rfl
    | some p =>
      obtain ⟨a0, rest⟩ := p
      dsimp only
      cases hs : splitFirstCI trCloseLit (rest.drop 3) with
      | none => rfl
      | some q =>
        obtain ⟨mid, mclose, after⟩ := q
        dsimp only
        have hb := rowMatchesFuel_bound hf hs
        rw [rowMatches]
        rw [rowMatchesFuel_irrel r.length after.length after
          (by simp only [List.length_cons] at hb; omega) (le_refl _)]

/-- Whether a row contains a curly-brace placeholder
(the `/\{[^}]+\}/` test). -/
def hasPlaceholder : List Char → Bool
  | [] => false
  | c :: rest =>
    (c = openBrace &&
      (match rest with
       | [] => false
       | d :: _ => d ≠ closeBrace && rest.contains closeBrace)) ||
    hasPlaceholder rest

/-- `findTemplateRow` from `src/reporting/htmlReport.ts`: the first row
match containing a placeholder; errors mirror the thrown exceptions. -/
def findTemplateRow (html : List Char) : Except (List Char) (List Char) :=
  match rowMatches html with
  | [] => .error "Template does not contain any table rows.".toList
  | m :: ms =>
    match (m :: ms).find? hasPlaceholder with
    | some target => .ok target
    | none =>
      .error "Unable to find template table row containing placeholders.".toList

/-- One step of the global `\{([^}]+)\}` scan: after an opening brace,
take the characters up to the first closing brace; at least one character
is required. -/
def matchPh (rest : List Char) : Option (List Char × List Char) :=
  match splitFirst [closeBrace] rest with
  | none => none
  | some (pre, post) => if pre = [] then none else some (pre, post)

theorem matchPh_eq_some {rest name rest2 : List Char}
    (h : matchPh rest = some (name, rest2)) :
    rest = name ++ closeBrace :: rest2 ∧ name ≠ [] := by
  rw [matchPh] at h
  cases hs : splitFirst [closeBrace] rest with
  | none => rw [hs] at h; exact absurd h (by simp)
  | some p =>
    obtain ⟨pre, post⟩ := p
    rw [hs] at h
    dsimp only at h
    by_cases hpre : pre = []
    · rw [if_pos hpre] at h; exact absurd h (by simp)
    · rw [if_neg hpre] at h
      simp only [Option.some.injEq, Prod.mk.injEq] at h
      have := splitFirst_eq_some hs
      rw [← h.1, ← h.2]
      constructor
      · simpa using this
      · exact hpre

/-- The raw placeholder names of a row, in match order
(`templateRow.match(/\{([^}]+)\}/g)` with the braces stripped).
Fuel-based structural recursion; `extractRaw` supplies enough fuel. -/
def extractRawFuel : Nat → List Char → List (List Char)
  | 0, _ => []
  | fuel + 1, l =>
    match l with
    | [] => []
    | c :: rest =>
      if c = openBrace then
        match matchPh rest with
        | some (name, rest2) => name :: extractRawFuel fuel rest2
        | none => extractRawFuel fuel rest
      else extractRawFuel fuel rest

def extractRaw (l : List Char) : List (List Char) :=
  extractRawFuel l.length l

theorem extractRawFuel_irrel :
    ∀ fuel1 fuel2 l, l.length ≤ fuel1 → l.length ≤ fuel2 →
    extractRawFuel fuel1 l = extractRawFuel fuel2 l := by
  intro fuel1
  induction fuel1 with
  | zero =>
    intro fuel2 l h1 _
    have : l = [] := List.length_eq_zero.mp (by omega)
    subst this
    cases fuel2 <;> rfl
  | succ f1 ih =>
    intro fuel2 l h1 h2
    cases l with
    | nil => cases fuel2 <;> rfl
    | cons c rest =>
      cases fuel2 with
      | zero => simp at h2
      | succ f2 =>
        simp only [extractRawFuel]
        by_cases hc : c = openBrace
        · rw [if_pos hc, if_pos hc]
          cases hm : matchPh rest with
          | none =>
            dsimp only
            simp only [List.length_cons] at h1 h2
            rw [ih f2 rest (by omega) (by omega)]
          | some p =>
            obtain ⟨name, rest2⟩ := p
            dsimp only
            obtain ⟨hr, hne⟩ := matchPh_eq_some hm
            have hlen : rest.length = name.length + (rest2.length + 1) := by
              rw [hr]; simp
            simp only [List.length_cons] at h1 h2
            rw [ih f2 rest2 (by omega) (by omega)]
        · rw [if_neg hc, if_neg hc]
          simp only [List.length_cons] at h1 h2
          rw [ih f2 rest (by omega) (by omega)]

theorem extractRaw_cons (c : Char) (rest : List Char) :
    extractRaw (c :: rest) =
      if c = openBrace then
        match matchPh rest with
        | some (name, rest2) => name :: extractRaw rest2
        | none => extractRaw rest
      else extractRaw rest := by
  show extractRawFuel (rest.length + 1) (c :: rest) = _
  simp only [extractRawFuel]
  by_cases hc : c = openBrace
  · rw [if_pos hc, if_pos hc]
    cases hm : matchPh rest with
    | none => dsimp only; rw [extractRaw]
    | some p =>
      obtain ⟨name, rest2⟩ := p
      dsimp only
      obtain ⟨hr, hne⟩ := matchPh_eq_some hm
      have hlen : rest.length = name.length + (rest2.length + 1) := by
        rw [hr]; simp
      rw [extractRaw]
      rw [extractRawFuel_irrel rest.length rest2.length rest2
        (by omega) (le_refl _)]
  · rw [if_neg hc, if_neg hc]
    rw [extractRaw]

/-- Insertion-ordered deduplication (`Array.from(new Set(...))`): the
first occurrence of each element is kept. -/
def dedupFirstGo {α : Type} [DecidableEq α] (seen : List α) : List α → List α
  | [] => []
  | x :: rest =>
    if x ∈ seen then dedupFirstGo seen rest
    else x :: dedupFirstGo (x :: seen) rest

/-- `extractPlaceholders` from `src/reporting/htmlReport.ts`. -/
def extractPlaceholders (templateRow : List Char) : List (List Char) :=
  dedupFirstGo [] (extractRaw templateRow)

def hrefLit : List Char := "href".toList

/-- Match of the pattern `href\s*=\s*"\{key\}"` (flags `gi`) at the head
of `l`; returns the matched text and the remainder.  The key is matched
case-insensitively (the `i` flag applies to the whole pattern). -/
def matchHref (key l : List Char) : Option (List Char × List Char) :=
  if isPrefixOfCI hrefLit l then
    let w1 := (l.drop 4).takeWhile isJsWs
    match (l.drop 4).dropWhile isJsWs with
    | [] => none
    | c :: l3 =>
      if c = '=' then
        let w2 := l3.takeWhile isJsWs
        match l3.dropWhile isJsWs with
        | [] => none
        | d :: l5 =>
          if d = dquoteChar then
            match l5 with
            | [] => none
            | e :: l6 =>
              if e = openBrace && isPrefixOfCI key l6 then
                match l6.drop key.length with
                | [] => none
                | f :: l8 =>
                  if f = closeBrace then
                    match l8 with
                    | [] => none
                    | g :: l9 =>
                      if g = dquoteChar then
                        some (l.take 4 ++ w1 ++ '=' :: w2 ++ dquoteChar ::
                          openBrace :: l6.take key.length ++
                          closeBrace :: dquoteChar :: [], l9)
                      else none
                  else none
              else none
          else none
      else none
  else none

theorem matchHref_eq_some {key l m r : List Char}
    (h : matchHref key l = some (m, r)) : l = m ++ r ∧ m ≠ [] := by
  simp only [matchHref] at h
  by_cases h0 : isPrefixOfCI hrefLit l = true
  case neg => rw [if_neg h0] at h; exact absurd h (by simp)
  rw [if_pos h0] at h
  cases h1 : (l.drop 4).dropWhile isJsWs with
  | nil => rw [h1] at h; exact absurd h (by simp)
  | cons c l3 =>
  rw [h1] at h
  dsimp only at h
  by_cases hc : c = '='
  case neg => rw [if_neg hc] at h; exact absurd h (by simp)
  rw [if_pos hc] at h
  cases h2 : l3.dropWhile isJsWs with
  | nil => rw [h2] at h; exact absurd h (by simp)
  | cons d l5 =>
  rw [h2] at h
  dsimp only at h
  by_cases hd : d = dquoteChar
  case neg => rw [if_neg hd] at h; exact absurd h (by simp)
  rw [if_pos hd] at h
  cases l5 with
  | nil => exact absurd h (by simp)
  | cons e l6 =>
  dsimp only at h
  by_cases he : (e = openBrace && isPrefixOfCI key l6) = true
  case neg => rw [if_neg he] at h; exact absurd h (by simp)
  rw [if_pos he] at h
  cases h3 : l6.drop key.length with
  | nil => rw [h3] at h; exact absurd h (by simp)
  | cons f l8 =>
  rw [h3] at h
  dsimp only at h
  by_cases hf : f = closeBrace
  case neg => rw [if_neg hf] at h; exact absurd h (by simp)
  rw [if_pos hf] at h
  cases l8 with
  | nil => exact absurd h (by simp)
  | cons g l9 =>
  dsimp only at h
  by_cases hg : g = dquoteChar
  case neg => rw [if_neg hg] at h; exact absurd h (by simp)
  rw [if_pos hg] at h
  simp only [Option.some.injEq, Prod.mk.injEq] at h
  obtain ⟨hm, hr⟩ := h
  rw [Bool.and_eq_true] at he
  have he1 : e = openBrace := by simpa using he.1
  constructor
  · have step0 : l = l.take 4 ++ l.drop 4 := (List.take_append_drop 4 l).symm
    have step1 : l.drop 4 =
        (l.drop 4).takeWhile isJsWs ++ (c :: l3) := by
      conv_lhs => rw [← List.takeWhile_append_dropWhile (p := isJsWs)
        (l := l.drop 4)]
      rw [h1]
    have step2 : l3 = l3.takeWhile isJsWs ++ (d :: (e :: l6)) := by
      conv_lhs => rw [← List.takeWhile_append_dropWhile (p := isJsWs)
        (l := l3)]
      rw [h2]
    have step3 : l6 = l6.take key.length ++ (f :: (g :: l9)) := by
      conv_lhs => rw [← List.take_append_drop key.length l6]
      rw [h3]
    rw [← hm, ← hr]
    conv_lhs => rw [step0]
    conv_lhs => rw [step1]
    conv_lhs => rw [step2]
    conv_lhs => rw [step3]
    rw [hc, hd, he1, hf, hg]
    simp
  · rw [← hm]
    simp

/-- Global replacement of `href\s*=\s*"\{key\}"` matches (the
`hrefPattern` replace in `replacePlaceholder`): leftmost non-overlapping
matches, each replaced by `repl` through substitution-pattern expansion.
Fuel-based structural recursion; `replaceHrefGo` supplies enough fuel. -/
def replaceHrefFuel (key repl : List Char) :
    Nat → List Char → List Char → List Char
  | 0, _, l => l
  | _ + 1, _, [] => []
  | fuel + 1, bef, c :: rest =>
    match matchHref key (c :: rest) with
    | some (m, r) =>
      expandRepl m bef r repl ++ replaceHrefFuel key repl fuel (bef ++ m) r
    | none => c :: replaceHrefFuel key repl fuel (bef ++ [c]) rest

def replaceHrefGo (key repl bef l : List Char) : List Char :=
  replaceHrefFuel key repl l.length bef l

theorem matchHref_shorter {key : List Char} {c : Char} {rest m r : List Char}
    (hm : matchHref key (c :: rest) = some (m, r)) : r.length ≤ rest.length := by
  obtain ⟨hl, hne⟩ := matchHref_eq_some hm
  have hlen : (c :: rest).length = m.length + r.length := by
    rw [hl]; simp
  have hm1 : 1 ≤ m.length := by
    cases hmm : m with
    | nil => exact absurd hmm hne
    | cons x xs => simp
  simp only [List.length_cons] at hlen
  omega

theorem replaceHrefFuel_irrel (key repl : List Char) :
    ∀ fuel1 fuel2 bef l, l.length ≤ fuel1 → l.length ≤ fuel2 →
    replaceHrefFuel key repl fuel1 bef l =
      replaceHrefFuel key repl fuel2 bef l := by
  intro fuel1
  induction fuel1 with
  | zero =>
    intro fuel2 bef l h1 _
    have : l = [] := List.length_eq_zero.mp (by omega)
    subst this
    cases fuel2 <;> rfl
  | succ f1 ih =>
    intro fuel2 bef l h1 h2
    cases l with
    | nil => cases fuel2 <;> rfl
    | cons c rest =>
      cases fuel2 with
      | zero => simp at h2
      | succ f2 =>
        simp only [replaceHrefFuel]
        cases hm : matchHref key (c :: rest) with
        | none =>
          dsimp only
          simp only [List.length_cons] at h1 h2
          rw [ih f2 (bef ++ [c]) rest (by omega) (by omega)]
        | some p =>
          obtain ⟨m, r⟩ := p
          dsimp only
          have hr := matchHref_shorter hm
          simp only [List.length_cons] at h1 h2
          rw [ih f2 (bef ++ m) r (by omega) (by omega)]

theorem replaceHrefGo_nil (key repl bef : List Char) :
    replaceHrefGo key repl bef [] = [] := rfl

theorem replaceHrefGo_cons (key repl bef : List Char) (c : Char)
    (rest : List Char) :
    replaceHrefGo key repl bef (c :: rest) =
      match matchHref key (c :: rest) with
      | some (m, r) =>
        expandRepl m bef r repl ++ replaceHrefGo key repl (bef ++ m) r
      | none => c :: replaceHrefGo key repl (bef ++ [c]) rest := by
  show replaceHrefFuel key repl (rest.length + 1) bef (c :: rest) = _
  simp only [replaceHrefFuel]
  cases hm : matchHref key (c :: rest) with
  | none => dsimp only; rw [replaceHrefGo]
  | some p =>
    obtain ⟨m, r⟩ := p
    dsimp only
    have hr := matchHref_shorter hm
    rw [replaceHrefGo]
    rw [replaceHrefFuel_irrel key repl rest.length r.length (bef ++ m) r
      (by omega) (le_refl _)]

/-- `replacePlaceholder` from `src/reporting/htmlReport.ts`: first the
`href="{key}"` attribute pattern is replaced (deleted entirely when the
value is one of the two sentinels and `removeHrefWhenMissing` is set),
then every `{key}` occurrence is replaced by the value. -/
def replacePlaceholder (source key value : List Char)
    (removeHrefWhenMissing : Bool) : List Char :=
  let shouldRemoveHref := removeHrefWhenMissing &&
    (value = NO_WORK_ITEMS_MESSAGE || value = MISSING_VALUE_TEXT)
  let hrefRepl := if shouldRemoveHref then ([] : List Char)
    else "href=".toList ++ dquoteChar :: value ++ [dquoteChar]
  let source1 := replaceHrefGo key hrefRepl [] source
  replaceAllLit (openBrace :: key ++ [closeBrace]) value source1

/-- `renderRowFromTemplate` from `src/reporting/htmlReport.ts`. -/
def renderRowFromTemplate (templateRow : List Char)
    (placeholders : List (List Char)) (row : TemplateRow) : List Char :=
  placeholders.foldl
    (fun rendered key =>
      replacePlaceholder rendered key
        (escapeHtml (formatTemplateValue (row key))) true)
    templateRow

/-- `renderEmptyRow` from `src/reporting/htmlReport.ts`. -/
def renderEmptyRow (templateRow : List Char)
    (placeholders : List (List Char)) : List Char :=
  placeholders.foldl
    (fun rendered key =>
      replacePlaceholder rendered key (escapeHtml NO_WORK_ITEMS_MESSAGE) true)
    templateRow

def sprintPat : List Char := "{sprint}".toList

/-- `buildReportDocument` from `src/reporting/htmlReport.ts`: substitute
`{sprint}`, locate the placeholder row, render one copy per data row (or
the single no-data row), and replace the first occurrence of the located
fragment.  Thrown exceptions become `Except.error`. -/
def buildReportDocument (templateHtml sprintLabel : List Char)
    (rows : List TemplateRow) : Except (List Char) (List Char) :=
  let html := replaceAllLit sprintPat (escapeHtml sprintLabel) templateHtml
  match findTemplateRow html with
  | .error e => .error e
  | .ok templateRow =>
    let placeholders := extractPlaceholders templateRow
    let tableRows :=
      match rows with
      | [] => renderEmptyRow templateRow placeholders
      | _ :: _ =>
        (rows.map (renderRowFromTemplate templateRow placeholders)).flatten
    .ok (replaceFirstExpand html templateRow tableRows)

/-! ## Embedding of `src/utils/slugifyString.ts` -/

/-- Replace every maximal run of `p`-characters by the single character
`r` (JavaScript `replace(/X+/g, "r")` for a character class `X`).
Fuel-based structural recursion; `collapseRuns` supplies enough fuel. -/
def collapseRunsFuel (p : Char → Bool) (r : Char) :
    Nat → List Char → List Char
  | 0, l => l
  | _ + 1, [] => []
  | fuel + 1, c :: rest =>
    if p c then r :: collapseRunsFuel p r fuel (rest.dropWhile p)
    else c :: collapseRunsFuel p r fuel rest

def collapseRuns (p : Char → Bool) (r : Char) (l : List Char) : List Char :=
  collapseRunsFuel p r l.length l

theorem collapseRunsFuel_irrel (p : Char → Bool) (r : Char) :
    ∀ fuel1 fuel2 l, l.length ≤ fuel1 → l.length ≤ fuel2 →
    collapseRunsFuel p r fuel1 l = collapseRunsFuel p r fuel2 l := by
  intro fuel1
  induction fuel1 with
  | zero =>
    intro fuel2 l h1 _
    have : l = [] := List.length_eq_zero.mp (by omega)
    subst this
    cases fuel2 <;> rfl
  | succ f1 ih =>
    intro fuel2 l h1 h2
    cases l with
    | nil => cases fuel2 <;> rfl
    | cons c rest =>
      cases fuel2 with
      | zero => simp at h2
      | succ f2 =>
        simp only [collapseRunsFuel]
        have hdw : (rest.dropWhile p).length ≤ rest.length :=
          List.Sublist.length_le (List.dropWhile_sublist (l := rest) p)
        simp only [List.length_cons] at h1 h2
        by_cases hc : p c = true
        · rw [if_pos hc, if_pos hc]
          rw [ih f2 (rest.dropWhile p) (by omega) (by omega)]
        · rw [if_neg hc, if_neg hc]
          rw [ih f2 rest (by omega) (by omega)]

theorem collapseRuns_nil (p : Char → Bool) (r : Char) :
    collapseRuns p r [] = [] := rfl

theorem collapseRuns_cons (p : Char → Bool) (r : Char) (c : Char)
    (rest : List Char) :
    collapseRuns p r (c :: rest) =
      if p c then r :: collapseRuns p r (rest.dropWhile p)
      else c :: collapseRuns p r rest := by
  show collapseRunsFuel p r (rest.length + 1) (c :: rest) = _
  simp only [collapseRunsFuel]
  have hdw : (rest.dropWhile p).length ≤ rest.length :=
    List.Sublist.length_le (List.dropWhile_sublist (l := rest) p)
  by_cases hc : p c = true
  · rw [if_pos hc, if_pos hc]
    rw [collapseRuns]
    rw [collapseRunsFuel_irrel p r rest.length (rest.dropWhile p).length
      (rest.dropWhile p) (by omega) (le_refl _)]
  · rw [if_neg hc, if_neg hc]
    rw [collapseRuns]

/-- The character class `[<>:"/\\|?*]` of illegal filename characters. -/
def illegalFilenameChar (c : Char) : Bool :=
  c = '<' || c = '>' || c = ':' || c = dquoteChar || c = '/' ||
  c = bslashChar || c = '|' || c = '?' || c = '*'

/-- `slugifyString` from `src/utils/slugifyString.ts` (also duplicated as
`slugifySprintLabel`): trim, strip illegal filename characters, collapse
whitespace, dash, collapse dashes, lowercase, with the literal `report`
fallback for an empty result. -/
def slugifyString (value : List Char) : List Char :=
  let trimmed := jsTrim value
  let withoutIllegal := trimmed.filter (fun c => !illegalFilenameChar c)
  let collapsedWhitespace := jsTrim (collapseRuns isJsWs ' ' withoutIllegal)
  let dashed := collapseRuns isJsWs '-' collapsedWhitespace
  let cleaned := collapseRuns (fun c => c = '-') '-' dashed
  if cleaned.map Char.toLower = [] then "report".toList
  else cleaned.map Char.toLower

/-! ## Embedding of `src/reporting.ts` (iteration selection) -/

/-- Substring test (JavaScript `String.prototype.includes`). -/
def containsSub (pat : List Char) : List Char → Bool
  | [] => pat.isPrefixOf ([] : List Char)
  | c :: rest => pat.isPrefixOf (c :: rest) || containsSub pat rest

structure IterationWindow where
  start : Int
  finish : Int
  name : List Char
  path : Option (List Char)
  id : Option (List Char)
deriving DecidableEq

structure IterationSelection where
  iterations : List IterationWindow
  sprintLabel : List Char
deriving DecidableEq

/-- `normalizeIterationKey`: `value?.trim().toLocaleLowerCase("en-US") ?? ""`. -/
def normalizeIterationKey : Option (List Char) → List Char
  | none => []
  | some v => (jsTrim v).map Char.toLower

/-- `getCandidateKeys` from `src/reporting.ts`: normalized name, path,
path segments split on the backslash, and id; deduplicated in insertion
order (`Set`) and filtered of empty keys. -/
def getCandidateKeys (it : IterationWindow) : List (List Char) :=
  let pathKeys : List (List Char) :=
    match it.path with
    | none => []
    | some p =>
      normalizeIterationKey (some p) ::
        (p.splitOn bslashChar).map (fun seg => normalizeIterationKey (some seg))
  let idKeys : List (List Char) :=
    match it.id with
    | none => []
    | some i => [normalizeIterationKey (some i)]
  let keys := normalizeIterationKey (some it.name) :: (pathKeys ++ idKeys)
  (dedupFirstGo [] keys).filter (fun k => k ≠ [])

/-- Whether `now` lies in the closed interval `[start, finish]`. -/
def IterationWindow.containsNow (it : IterationWindow) (now : Int) : Bool :=
  decide (it.start ≤ now) && decide (now ≤ it.finish)

def noIterationMessage (q : List Char) : List Char :=
  "Unable to find an iteration matching sprint \"".toList ++ q ++ "\".".toList

/-- `selectIterations` from `src/reporting.ts`.  `Date.now()` is passed in
as `now`; a JavaScript falsy `sprintName` (absent or the empty string) takes
the no-query branch; the thrown error becomes `Except.error`. -/
def selectIterations (allIterations : List IterationWindow)
    (sprintName : Option (List Char)) (now : Int) :
    Except (List Char) IterationSelection :=
  match allIterations with
  | [] => .ok ⟨[], sprintName.getD []⟩
  | a0 :: rest =>
    if (sprintName.getD []) = [] then
      match (a0 :: rest).find? (fun it => it.containsNow now) with
      | some current => .ok ⟨[current], current.name⟩
      | none =>
        let latest := (a0 :: rest).getLast (by simp)
        .ok ⟨[latest], latest.name⟩
    else
      let query := normalizeIterationKey (some (sprintName.getD []))
      match (a0 :: rest).find?
          (fun it => (getCandidateKeys it).any (fun k => k = query)) with
      | some m => .ok ⟨[m], m.name⟩
      | none =>
        match (a0 :: rest).find?
            (fun it => (getCandidateKeys it).any
              (fun k => containsSub query k)) with
        | some m => .ok ⟨[m], m.name⟩
        | none => .error (noIterationMessage (sprintName.getD []))

/-! ## Embedding of the work-item aggregation
(`gatherReportRows` in the entry module, with `extractAssignedTo` from
`src/devops/workItems.ts`) -/

/-- The raw `System.AssignedTo` field: absent/falsy, a plain string, or a
structured identity. -/
inductive AssignedToField where
  | absent : AssignedToField
  | strVal (s : List Char) : AssignedToField
  | identity (displayName : Option (List Char))
      (uniqueName : Option (List Char)) : AssignedToField

structure WorkItem where
  id : Option Int
  assignedTo : AssignedToField

/-- `extractAssignedTo`: prefer the identity display name, then the unique
name, else `Unassigned`; a plain non-empty string is used directly (the
empty string is falsy and also yields `Unassigned`). -/
def extractAssignedTo (w : WorkItem) : List Char :=
  match w.assignedTo with
  | .absent => "Unassigned".toList
  | .strVal s => if s = [] then "Unassigned".toList else s
  | .identity d u =>
    let dv := d.getD []
    if dv ≠ [] then dv
    else
      let uv := u.getD []
      if uv ≠ [] then uv else "Unassigned".toList

structure ReportRow where
  id : Int
  assignedTo : List Char
  testSuiteLink : Option (List Char)
deriving DecidableEq

def buildReportRow (findLink : List Char → Option (List Char))
    (i : Int) (w : WorkItem) : ReportRow :=
  { id := i
    assignedTo := extractAssignedTo w
    testSuiteLink := findLink (toString i).toList }

/-- The dedup loop of `gatherReportRows`: items without a numeric id are
dropped, an id already seen is skipped (first occurrence wins). -/
def dedupWorkItems (findLink : List Char → Option (List Char))
    (seen : List Int) : List WorkItem → List ReportRow
  | [] => []
  | w :: rest =>
    match w.id with
    | none => dedupWorkItems findLink seen rest
    | some i =>
      if i ∈ seen then dedupWorkItems findLink seen rest
      else buildReportRow findLink i w ::
        dedupWorkItems findLink (i :: seen) rest

/-- The sort comparator of `gatherReportRows`:
`a.assignedTo.localeCompare(b.assignedTo)` (locale collation is the
abstract comparator `lc`), tie-broken by `a.id - b.id`. -/
def rowCompare (lc : List Char → List Char → Int) (a b : ReportRow) : Int :=
  let assignedCompare := lc a.assignedTo b.assignedTo
  if assignedCompare ≠ 0 then assignedCompare else a.id - b.id

/-- `gatherReportRows` from the entry module: the per-iteration fetched
work items are supplied as `itemsPerIteration` (one list per selected
iteration window, in window order); the suite-finder lookup keyed by the
id string is `findLink`; `Array.prototype.sort` with a consistent
comparator is a stable sorted permutation, modelled by `mergeSort`. -/
def gatherReportRows (lc : List Char → List Char → Int)
    (itemsPerIteration : List (List WorkItem))
    (findLink : List Char → Option (List Char)) : List ReportRow :=
  (dedupWorkItems findLink [] itemsPerIteration.flatten).mergeSort
    (fun a b => decide (rowCompare lc a b ≤ 0))

/-! ## Embedding of `TestSuiteFinder` (suite-index builder) -/

structure TestPlan where
  id : Int
deriving DecidableEq

structure TestSuite where
  id : Int
  name : Option (List Char)
deriving DecidableEq

/-- `orgUrl.replace(/\/+$/, "")`. -/
def stripTrailingSlashes (l : List Char) : List Char :=
  (l.reverse.dropWhile (fun c => c = '/')).reverse

def utf8Bytes (n : Nat) : List Nat :=
  if n < 128 then [n]
  else if n < 2048 then [192 + n / 64, 128 + n % 64]
  else if n < 65536 then [224 + n / 4096, 128 + (n / 64) % 64, 128 + n % 64]
  else [240 + n / 262144, 128 + (n / 4096) % 64, 128 + (n / 64) % 64,
    128 + n % 64]

def hexDigitUpper (n : Nat) : Char :=
  if n < 10 then Char.ofNat (48 + n) else Char.ofNat (55 + n)

/-- Characters left unescaped by `encodeURIComponent`. -/
def uriUnescapedChar (c : Char) : Bool :=
  (Char.ofNat 97 ≤ c && c ≤ Char.ofNat 122) ||
  (Char.ofNat 65 ≤ c && c ≤ Char.ofNat 90) ||
  (Char.ofNat 48 ≤ c && c ≤ Char.ofNat 57) ||
  c = '-' || c = '_' || c = '.' || c = '!' || c = '~' || c = '*' ||
  c = squoteChar || c = '(' || c = ')'

/-- `encodeURIComponent`: unescaped characters kept, everything else
percent-encoded as uppercase-hex UTF-8 bytes. -/
def encodeURIComponent (l : List Char) : List Char :=
  (l.map (fun c =>
    if uriUnescapedChar c then [c]
    else ((utf8Bytes c.toNat).map
      (fun b => ['%', hexDigitUpper (b / 16), hexDigitUpper (b % 16)])).flatten)).flatten

/-- The deep link recorded for a suite:
`{orgBase}/{urlEncodedProject}/_testPlans/execute?planId={planId}&suiteId={suiteId}`. -/
def suiteLink (orgBaseUrl projectSegment : List Char)
    (plan : TestPlan) (suite : TestSuite) : List Char :=
  orgBaseUrl ++ '/' :: projectSegment ++ "/_testPlans/execute?planId=".toList ++
    (toString plan.id).toList ++ "&suiteId=".toList ++ (toString suite.id).toList

/-- `Map.prototype.get`-style lookup on the insertion-ordered index. -/
def lookupIndex (m : List (List Char × List Char)) (k : List Char) :
    Option (List Char) :=
  match m.find? (fun e => e.1 = k) with
  | some e => some e.2
  | none => none

/-- `TestSuiteFinder.addSuite`: record `trim(suite.name) -> link` only for
a non-empty trimmed title that is not already present (`Map.set` appends
the new entry in insertion order). -/
def addSuite (orgBaseUrl projectSegment : List Char)
    (m : List (List Char × List Char)) (entry : TestPlan × TestSuite) :
    List (List Char × List Char) :=
  let key := jsTrim (entry.2.name.getD [])
  if key = [] then m
  else if (lookupIndex m key).isSome then m
  else m ++ [(key, suiteLink orgBaseUrl projectSegment entry.1 entry.2)]

/-- The suite index produced by visiting plan/suite pairs in walk order
(plan pages, then each plan's suite tree depth-first — the traversal
order is the `visits` list; only `addSuite` mutates the index). -/
def buildSuiteIndex (orgUrl project : List Char)
    (visits : List (TestPlan × TestSuite)) : List (List Char × List Char) :=
  visits.foldl
    (addSuite (stripTrailingSlashes orgUrl) (encodeURIComponent project)) []

/-- `TestSuiteFinder.findSuiteLinkByTitle` (after the index is built):
falsy titles yield `null`; otherwise the trimmed title is looked up. -/
def findSuiteLinkByTitle (index : List (List Char × List Char))
    (title : List Char) : Option (List Char) :=
  if title = [] then none else lookupIndex index (jsTrim title)

/-! ## Embedding of `src/integrations/confluence.ts` -/

structure ConfluencePageSummary where
  id : List Char
  title : List Char
  versionNumber : Int
deriving DecidableEq

/-- The fields of a parsed Confluence create/update response that the
result handling reads. -/
structure ConfluenceContentResponse where
  id : Option (List Char)
  title : Option (List Char)
  versionNumber : Option Int
deriving DecidableEq

/-- The JSON payload submitted by `createConfluenceReportPage` /
`updateConfluenceReportPage` (field `typeField` is the literal `type`
member, always `"page"`). -/
structure ConfluencePagePayload where
  id : Option (List Char)
  typeField : List Char
  title : List Char
  versionNumber : Option Int
  spaceKey : List Char
  bodyStorageValue : List Char
  ancestors : List (List Char)
deriving DecidableEq

/-- `computeReportTitle` from `src/integrations/confluence.ts`: trimmed
template title (falling back to `QA Report` when empty/falsy), trimmed
sprint label, and a first-occurrence `replace("{sprint}", sprint)`; an
empty trimmed label returns the base title unchanged. -/
def computeReportTitle (templateTitle sprintLabel : List Char) : List Char :=
  let baseTitle :=
    if jsTrim templateTitle = [] then "QA Report".toList
    else jsTrim templateTitle
  let sprint := jsTrim sprintLabel
  if sprint = [] then baseTitle
  else replaceFirstExpand baseTitle sprintPat sprint

def ancestorsFor (configParentPageId templateParentPageId :
    Option (List Char)) : List (List Char) :=
  match configParentPageId with
  | some pid => [pid]
  | none =>
    match templateParentPageId with
    | some pid => [pid]
    | none => []

/-- The payload built by `createConfluenceReportPage` (no id, no version). -/
def createPagePayload (spaceKey title html : List Char)
    (configParentPageId templateParentPageId : Option (List Char)) :
    ConfluencePagePayload :=
  { id := none
    typeField := "page".toList
    title := title
    versionNumber := none
    spaceKey := spaceKey
    bodyStorageValue := html
    ancestors := ancestorsFor configParentPageId templateParentPageId }

/-- The payload built by `updateConfluenceReportPage`: the submitted
version is `existing.versionNumber + 1`. -/
def updatePagePayload (existing : ConfluencePageSummary)
    (spaceKey title html : List Char)
    (configParentPageId templateParentPageId : Option (List Char)) :
    ConfluencePagePayload :=
  { id := some existing.id
    typeField := "page".toList
    title := title
    versionNumber := some (existing.versionNumber + 1)
    spaceKey := spaceKey
    bodyStorageValue := html
    ancestors := ancestorsFor configParentPageId templateParentPageId }

/-- Result handling of `createConfluenceReportPage` on a parsed response:
a missing id is a hard error; the returned version defaults to `1` when
the response carries none. -/
def createPageResult (title : List Char) (resp : ConfluenceContentResponse) :
    Except (List Char) ConfluencePageSummary :=
  match resp.id with
  | none =>
    .error "Confluence did not return an ID for the created page.".toList
  | some rid =>
    .ok { id := rid
          title := resp.title.getD title
          versionNumber := resp.versionNumber.getD 1 }

/-- Result handling of `updateConfluenceReportPage` on a parsed response:
the returned version defaults to the submitted `versionNumber + 1`. -/
def updatePageResult (existing : ConfluencePageSummary) (title : List Char)
    (resp : ConfluenceContentResponse) : ConfluencePageSummary :=
  { id := existing.id
    title := resp.title.getD title
    versionNumber := resp.versionNumber.getD (existing.versionNumber + 1) }

/-! ## Generic lemmas about the string operations -/

theorem isPrefixOf_append_self {pat b : List Char} :
    pat.isPrefixOf (pat ++ b) = true := by
  rw [List.isPrefixOf_iff_prefix]
  exact List.prefix_append pat b

theorem isPrefixOf_nil_false {pat : List Char} (h : pat ≠ []) :
    pat.isPrefixOf ([] : List Char) = false := by
  cases pat with
  | nil => exact absurd rfl h
  | cons x xs => rfl

theorem no_occ_extend {pat l : List Char} (hpat : pat ≠ [])
    (h : ∀ i < l.length, pat.isPrefixOf (l.drop i) = false) :
    ∀ i, pat.isPrefixOf (l.drop i) = false := by
  intro i
  by_cases hi : i < l.length
  · exact h i hi
  · have : l.drop i = [] := List.drop_eq_nil_of_le (by omega)
    rw [this]
    exact isPrefixOf_nil_false hpat

theorem replaceAllGo_no_occ {pat repl l : List Char}
    (h : ∀ i, pat.isPrefixOf (l.drop i) = false) :
    ∀ bef, replaceAllGo pat repl bef l = l := by
  induction l with
  | nil => intro bef; exact replaceAllGo_nil pat repl bef
  | cons c rest ih =>
    intro bef
    have h0 : pat.isPrefixOf (c :: rest) = false := by
      have := h 0
      simpa using this
    rw [replaceAllGo_cons, if_neg (by
      intro hc
      rw [h0] at hc
      exact Bool.false_ne_true hc.2)]
    have ih' := ih (fun i => by
      have := h (i + 1)
      simpa [List.drop_succ_cons] using this)
    rw [ih']

theorem splitFirst_no_occ {pat l : List Char}
    (h : ∀ i, pat.isPrefixOf (l.drop i) = false) :
    splitFirst pat l = none := by
  induction l with
  | nil =>
    have h0 : pat.isPrefixOf ([] : List Char) = false := by simpa using h 0
    rw [splitFirst, if_neg (by simp [h0])]
  | cons c rest ih =>
    have h0 : pat.isPrefixOf (c :: rest) = false := by simpa using h 0
    rw [splitFirst, if_neg (by simp [h0])]
    rw [ih (fun i => by
      have := h (i + 1)
      simpa [List.drop_succ_cons] using this)]

theorem splitFirst_aligned {pat : List Char} (hpat : pat ≠ []) :
    ∀ (a b : List Char),
    (∀ i < a.length, pat.isPrefixOf ((a ++ pat ++ b).drop i) = false) →
    splitFirst pat (a ++ pat ++ b) = some (a, b) := by
  intro a
  induction a with
  | nil =>
    intro b _
    obtain ⟨x, ps, hx⟩ : ∃ x ps, pat = x :: ps := by
      cases pat with
      | nil => exact absurd rfl hpat
      | cons x ps => exact ⟨x, ps, rfl⟩
    subst hx
    simp only [List.nil_append, List.cons_append]
    rw [splitFirst, if_pos (by
      have := @isPrefixOf_append_self (x :: ps) b
      simp)]
    simp [List.drop_append]
  | cons c a' ih =>
    intro b hne
    have h0 : pat.isPrefixOf (c :: (a' ++ (pat ++ b))) = false := by
      have := hne 0 (by simp)
      simpa [List.append_assoc] using this
    simp only [List.cons_append, List.append_assoc]
    rw [splitFirst, if_neg (by simp only [h0]; exact Bool.false_ne_true)]
    have ih' := ih b (fun i hi => by
      have := hne (i + 1) (by simp only [List.length_cons]; omega)
      simpa [List.drop_succ_cons] using this)
    simp only [List.cons_append, List.append_assoc] at ih'
    rw [ih']

theorem replaceAllGo_pos_step {pat repl bef b : List Char} (hpat : pat ≠ []) :
    replaceAllGo pat repl bef (pat ++ b) =
      expandRepl pat bef b repl ++ replaceAllGo pat repl (bef ++ pat) b := by
  cases pat with
  | nil => exact absurd rfl hpat
  | cons x ps =>
    simp only [List.cons_append]
    rw [replaceAllGo_cons, if_pos (by
      refine ⟨by simp, ?_⟩
      rw [← List.cons_append]
      exact isPrefixOf_append_self)]
    have hdrop : (x :: (ps ++ b)).drop (x :: ps).length = b := by
      rw [← List.cons_append, List.drop_left]
    rw [hdrop]

theorem replaceAllGo_aligned {pat repl : List Char} (hpat : pat ≠ []) :
    ∀ (a b bef : List Char),
    (∀ i < a.length, pat.isPrefixOf ((a ++ pat ++ b).drop i) = false) →
    replaceAllGo pat repl bef (a ++ pat ++ b) =
      a ++ expandRepl pat (bef ++ a) b repl ++
        replaceAllGo pat repl (bef ++ a ++ pat) b := by
  intro a
  induction a with
  | nil =>
    intro b bef _
    simp only [List.nil_append, List.append_nil]
    exact replaceAllGo_pos_step hpat
  | cons c a' ih =>
    intro b bef hne
    have h0 : pat.isPrefixOf (c :: (a' ++ (pat ++ b))) = false := by
      have := hne 0 (by simp)
      simpa [List.append_assoc] using this
    simp only [List.cons_append, List.append_assoc]
    rw [replaceAllGo_cons, if_neg (by
      intro hc
      rw [h0] at hc
      exact Bool.false_ne_true hc.2)]
    have ih' := ih b (bef ++ [c]) (fun i hi => by
      have := hne (i + 1) (by simp only [List.length_cons]; omega)
      simpa [List.drop_succ_cons] using this)
    simp only [List.cons_append, List.append_assoc] at ih'
    rw [ih']
    simp [List.append_assoc]

theorem isPrefixOfCI_append_self {pat b : List Char} :
    isPrefixOfCI pat (pat ++ b) = true := by
  induction pat with
  | nil => rfl
  | cons x xs ih => simp [isPrefixOfCI, ih]

theorem splitFirstCI_aligned {pat : List Char} (hpat : pat ≠ []) :
    ∀ (a b : List Char),
    (∀ i < a.length, isPrefixOfCI pat ((a ++ pat ++ b).drop i) = false) →
    splitFirstCI pat (a ++ pat ++ b) = some (a, pat, b) := by
  intro a
  induction a with
  | nil =>
    intro b _
    obtain ⟨x, ps, hx⟩ : ∃ x ps, pat = x :: ps := by
      cases pat with
      | nil => exact absurd rfl hpat
      | cons x ps => exact ⟨x, ps, rfl⟩
    subst hx
    simp only [List.nil_append, List.cons_append]
    rw [splitFirstCI, if_pos (by
      rw [← List.cons_append]
      exact isPrefixOfCI_append_self)]
    rw [← List.cons_append]
    rw [List.take_left, List.drop_left]
  | cons c a' ih =>
    intro b hne
    have h0 : isPrefixOfCI pat (c :: (a' ++ (pat ++ b))) = false := by
      have := hne 0 (by simp)
      simpa [List.append_assoc] using this
    simp only [List.cons_append, List.append_assoc]
    rw [splitFirstCI, if_neg (by simp only [h0]; exact Bool.false_ne_true)]
    have ih' := ih b (fun i hi => by
      have := hne (i + 1) (by simp only [List.length_cons]; omega)
      simpa [List.drop_succ_cons] using this)
    simp only [List.cons_append, List.append_assoc] at ih'
    rw [ih']

theorem trOpenAt_nil_false : trOpenAt ([] : List Char) = false := by decide

theorem findTrOpen_aligned :
    ∀ (p rest : List Char), trOpenAt rest = true →
    (∀ i < p.length, trOpenAt ((p ++ rest).drop i) = false) →
    findTrOpen (p ++ rest) = some (p, rest) := by
  intro p
  induction p with
  | nil =>
    intro rest hopen _
    cases rest with
    | nil => rw [trOpenAt_nil_false] at hopen; exact absurd hopen (by simp)
    | cons c r =>
      simp only [List.nil_append]
      rw [findTrOpen, if_pos hopen]
  | cons c p' ih =>
    intro rest hopen hne
    have h0 : trOpenAt (c :: (p' ++ rest)) = false := by
      have := hne 0 (by simp)
      simpa using this
    simp only [List.cons_append]
    rw [findTrOpen, if_neg (by simp only [h0]; exact Bool.false_ne_true)]
    rw [ih rest hopen (fun i hi => by
      have := hne (i + 1) (by simp only [List.length_cons]; omega)
      simpa [List.drop_succ_cons] using this)]

theorem rowMatches_aligned (p mid s : List Char)
    (hopen : trOpenAt (trOpenLit ++ (mid ++ (trCloseLit ++ s))) = true)
    (hp : ∀ i < p.length,
      trOpenAt ((p ++ (trOpenLit ++ (mid ++ (trCloseLit ++ s)))).drop i) = false)
    (hmid : ∀ i < mid.length,
      isPrefixOfCI trCloseLit ((mid ++ trCloseLit ++ s).drop i) = false) :
    rowMatches (p ++ (trOpenLit ++ (mid ++ (trCloseLit ++ s)))) =
      (trOpenLit ++ mid ++ trCloseLit) :: rowMatches s := by
  have hfind := findTrOpen_aligned p _ hopen hp
  have hsplit := @splitFirstCI_aligned trCloseLit (by decide) mid s hmid
  have h3 : trOpenLit.length = 3 := by decide
  have hdrop : (trOpenLit ++ (mid ++ (trCloseLit ++ s))).drop 3 =
      mid ++ (trCloseLit ++ s) := by
    rw [← h3, List.drop_left]
  have htake : (trOpenLit ++ (mid ++ (trCloseLit ++ s))).take 3 =
      trOpenLit := by
    rw [← h3, List.take_left]
  simp only [List.append_assoc] at hsplit
  rw [rowMatches_eq]
  rw [hfind]
  dsimp only
  rw [hdrop]
  rw [hsplit]
  dsimp only
  rw [htake]

theorem findTemplateRow_aligned (p mid s : List Char)
    (hopen : trOpenAt (trOpenLit ++ (mid ++ (trCloseLit ++ s))) = true)
    (hp : ∀ i < p.length,
      trOpenAt ((p ++ (trOpenLit ++ (mid ++ (trCloseLit ++ s)))).drop i) = false)
    (hmid : ∀ i < mid.length,
      isPrefixOfCI trCloseLit ((mid ++ trCloseLit ++ s).drop i) = false)
    (hph : hasPlaceholder (trOpenLit ++ mid ++ trCloseLit) = true) :
    findTemplateRow (p ++ (trOpenLit ++ (mid ++ (trCloseLit ++ s)))) =
      .ok (trOpenLit ++ mid ++ trCloseLit) := by
  rw [findTemplateRow]
  rw [rowMatches_aligned p mid s hopen hp hmid]
  dsimp only
  rw [List.find?_cons_of_pos _ hph]

/-! ## The canonical placeholder row (the row shape of the spec's
round-trip scenario: `{id}`, `{assigned_to}` and `{test_plan_link}`
inside an `href` and as text) -/

def canonBody : List Char :=
  "><td>{id}</td><td>{assigned_to}</td><td><a href=\"{test_plan_link}\">{test_plan_link}</a></td>".toList

def canonRow : List Char := trOpenLit ++ canonBody ++ trCloseLit

def canonPlaceholders : List (List Char) :=
  ["id".toList, "assigned_to".toList, "test_plan_link".toList]

def canonEmptyRow : List Char :=
  "<tr><td>No work items found</td><td>No work items found</td><td><a >No work items found</a></td></tr>".toList

/-- The table-rows replacement string produced for the canonical row:
the single no-data row for an empty rows list, otherwise one rendered
copy per data row in order. -/
def canonTableRows (rows : List TemplateRow) : List Char :=
  match rows with
  | [] => canonEmptyRow
  | _ :: _ => (rows.map (renderRowFromTemplate canonRow canonPlaceholders)).flatten

theorem trOpenAt_four (c1 c2 c3 c4 : Char) (tail : List Char) :
    trOpenAt (c1 :: c2 :: c3 :: c4 :: tail) = trOpenAt [c1, c2, c3, c4] := by
  simp [trOpenAt, trOpenLit, isPrefixOfCI]

theorem trOpenAt_canonRow (s : List Char) :
    trOpenAt (trOpenLit ++ (canonBody ++ (trCloseLit ++ s))) = true := by
  show trOpenAt ('<' :: 't' :: 'r' :: '>' ::
    ("<td>{id}</td><td>{assigned_to}</td><td><a href=\"{test_plan_link}\">{test_plan_link}</a></td>".toList ++
      (trCloseLit ++ s))) = true
  rw [trOpenAt_four]
  decide

/-- The heart of the canonical renderer conjuncts: for any template whose
`{sprint}`-substituted form is `p ++ canonRow ++ s` with hygienic
surroundings (no case-insensitive `<tr` row start inside `p`, no earlier
copy of the canonical row, and the row body closed by its own `</tr>`),
`buildReportDocument` succeeds and replaces exactly the canonical row by
`canonTableRows rows`, reproducing the substituted surroundings `p` and
`s` verbatim (provided the replacement carries no `$` substitution
pattern). -/
theorem buildReportDocument_canonical (templateHtml p s sprint : List Char)
    (rows : List TemplateRow)
    (hsub : replaceAllLit sprintPat (escapeHtml sprint) templateHtml =
      p ++ canonRow ++ s)
    (hopen : ∀ i < p.length,
      trOpenAt ((p ++ canonRow ++ s).drop i) = false)
    (hclose : ∀ i < canonBody.length,
      isPrefixOfCI trCloseLit ((canonBody ++ trCloseLit ++ s).drop i) = false)
    (hrow : ∀ i < p.length,
      canonRow.isPrefixOf ((p ++ canonRow ++ s).drop i) = false)
    (hnd : dollarSign ∉ canonTableRows rows) :
    buildReportDocument templateHtml sprint rows =
      .ok (p ++ canonTableRows rows ++ s) := by
  have hopen' : ∀ i < p.length,
      trOpenAt ((p ++ (trOpenLit ++ (canonBody ++ (trCloseLit ++ s)))).drop i) =
        false := by
    intro i hi
    have := hopen i hi
    simpa [canonRow, List.append_assoc] using this
  have hfound := findTemplateRow_aligned p canonBody s
    (trOpenAt_canonRow s) hopen' hclose (by decide)
  have hcanon : trOpenLit ++ canonBody ++ trCloseLit = canonRow := rfl
  rw [hcanon] at hfound
  have hfound' : findTemplateRow (p ++ canonRow ++ s) = .ok canonRow := by
    rw [← hfound]
    simp [canonRow, List.append_assoc]
  have hsplit : splitFirst canonRow (p ++ canonRow ++ s) = some (p, s) :=
    splitFirst_aligned (by decide) p s hrow
  have hph : extractPlaceholders canonRow = canonPlaceholders := by decide
  rw [buildReportDocument]
  rw [hsub, hfound']
  dsimp only
  rw [hph]
  have hfin : ∀ tr : List Char, dollarSign ∉ tr →
      replaceFirstExpand (p ++ canonRow ++ s) canonRow tr = p ++ tr ++ s := by
    intro tr hnd2
    rw [replaceFirstExpand, hsplit]
    dsimp only
    rw [expandRepl_no_dollar hnd2]
  cases rows with
  | nil =>
    dsimp only
    have hEmpty : renderEmptyRow canonRow canonPlaceholders = canonEmptyRow :=
      by rfl
    rw [hEmpty]
    rw [hfin canonEmptyRow (by simpa [canonTableRows] using hnd)]
    rfl
  | cons r rs =>
    dsimp only
    rw [hfin _ (by simpa [canonTableRows] using hnd)]
    rfl

/-! ## Claim C1 (renderer, empty rows) -/

/-- C1 counterexample: the claim quantifies over every template containing
a `<tr>...</tr>` fragment with a curly-brace placeholder.  For the
template `<tr>{sprint}</tr>` (whose only placeholder is `{sprint}`),
rendering with an empty rows list throws the missing-placeholder-row
error instead of producing a rendered row, because the `{sprint}`
substitution happens before the row is located. -/
theorem C1_counterexample :
    buildReportDocument "<tr>{sprint}</tr>".toList "S".toList [] =
      .error "Unable to find template table row containing placeholders.".toList := by
  rfl

/-- C1 (amended): for every template and sprint label whose
`{sprint}`-substituted document still contains a table-row fragment with
a curly-brace placeholder (`findTemplateRow` succeeds on it, returning
`row`), rendering with an empty rows list succeeds and replaces the first
occurrence of that fragment with exactly one rendered row — the empty-row
rendering of `row`, in which every extracted placeholder receives the
fixed sentinel; for every source and key, replacing a placeholder by the
escaped sentinel substitutes the empty string for each `href="{key}"`
attribute (the attribute is deleted entirely rather than populated)
before putting the sentinel into each `{key}`; on the canonical
placeholder row the rendering is the concrete `canonEmptyRow`, which
keeps no placeholder pattern and no `href` attribute. -/
theorem C1_empty_rows_single_sentinel_row :
    (∀ templateHtml sprintLabel row : List Char,
      findTemplateRow (replaceAllLit sprintPat (escapeHtml sprintLabel)
        templateHtml) = .ok row →
      buildReportDocument templateHtml sprintLabel [] =
        .ok (replaceFirstExpand
          (replaceAllLit sprintPat (escapeHtml sprintLabel) templateHtml) row
          (renderEmptyRow row (extractPlaceholders row)))) ∧
    (∀ source key : List Char,
      replacePlaceholder source key (escapeHtml NO_WORK_ITEMS_MESSAGE) true =
        replaceAllLit (openBrace :: key ++ [closeBrace]) NO_WORK_ITEMS_MESSAGE
          (replaceHrefGo key [] [] source)) ∧
    renderEmptyRow canonRow canonPlaceholders = canonEmptyRow ∧
    hasPlaceholder canonEmptyRow = false ∧
    containsSub "href".toList canonEmptyRow = false := by
  refine ⟨?_, ?_, by rfl, by decide, by decide⟩
  · intro templateHtml sprintLabel row h
    simp only [buildReportDocument]
    rw [h]
  · intro source key
    have hesc : escapeHtml NO_WORK_ITEMS_MESSAGE = NO_WORK_ITEMS_MESSAGE := by
      decide
    simp only [replacePlaceholder, hesc]
    rw [if_pos (by decide)]

theorem C1_witness :
    buildReportDocument "<p>{sprint}</p><tr>{x}</tr>".toList "Q1".toList [] =
      .ok "<p>Q1</p><tr>No work items found</tr>".toList ∧
    replacePlaceholder "<a href=\"{x}\">{x}</a>".toList "x".toList
        (escapeHtml NO_WORK_ITEMS_MESSAGE) true =
      "<a >No work items found</a>".toList := by
  constructor
  · rw [C1_empty_rows_single_sentinel_row.1 "<p>{sprint}</p><tr>{x}</tr>".toList
      "Q1".toList "<tr>{x}</tr>".toList (by rfl)]
    rfl
  · rw [C1_empty_rows_single_sentinel_row.2.1 "<a href=\"{x}\">{x}</a>".toList
      "x".toList]
    decide

/-! ## Claim C2 (renderer, fragment replacement and surroundings) -/

def c2exTemplate : List Char := "<p>{sprint}</p><tr>{id}</tr>".toList

def c2exRow : TemplateRow := fun _ => TemplateValue.undef

/-- C2 counterexample: the claim states that every character of the
template outside the located row fragment is left unchanged.  For the
template `<p>{sprint}</p><tr>{id}</tr>` the `{sprint}` placeholder lies
outside the fragment, yet the output starts with `<p>S</p>`, not with the
original `<p>{sprint}</p>`: the outside characters are changed. -/
theorem C2_counterexample :
    buildReportDocument c2exTemplate "S".toList [c2exRow] =
      .ok "<p>S</p><tr>N/A</tr>".toList ∧
    List.isPrefixOf "<p>{sprint}</p>".toList "<p>S</p><tr>N/A</tr>".toList =
      false := by
  exact ⟨by rfl, by decide⟩

/-- C2 (amended): for every template, sprint label and non-empty rows
list — for all values the rows may contain — `buildReportDocument`
replaces the first occurrence of the located single-row fragment with the
concatenation of the rendered rows (one rendered copy per data row, in
row order) under `String.replace` semantics; every character of the
template outside that fragment is carried over changed only by the
`{sprint}` substitution, and whenever the substituted document around the
canonical row is hygienic and the concatenated rendered rows carry no `$`
substitution pattern, the substituted surroundings are reproduced
verbatim around `canonTableRows rows`. -/
theorem C2_fragment_replacement :
    (∀ templateHtml sprintLabel row : List Char, ∀ rows : List TemplateRow,
      rows ≠ [] →
      findTemplateRow (replaceAllLit sprintPat (escapeHtml sprintLabel)
        templateHtml) = .ok row →
      buildReportDocument templateHtml sprintLabel rows =
        .ok (replaceFirstExpand
          (replaceAllLit sprintPat (escapeHtml sprintLabel) templateHtml) row
          ((rows.map
            (renderRowFromTemplate row (extractPlaceholders row))).flatten))) ∧
    (∀ templateHtml p s sprintLabel : List Char, ∀ rows : List TemplateRow,
      replaceAllLit sprintPat (escapeHtml sprintLabel) templateHtml =
        p ++ canonRow ++ s →
      (∀ i < p.length, trOpenAt ((p ++ canonRow ++ s).drop i) = false) →
      (∀ i < canonBody.length,
        isPrefixOfCI trCloseLit ((canonBody ++ trCloseLit ++ s).drop i) =
          false) →
      (∀ i < p.length,
        canonRow.isPrefixOf ((p ++ canonRow ++ s).drop i) = false) →
      dollarSign ∉ canonTableRows rows →
      buildReportDocument templateHtml sprintLabel rows =
        .ok (p ++ canonTableRows rows ++ s)) := by
  constructor
  · intro templateHtml sprintLabel row rows hne h
    cases rows with
    | nil => exact absurd rfl hne
    | cons r rs =>
      simp only [buildReportDocument]
      rw [h]
  · intro templateHtml p s sprintLabel rows hsub hopen hclose hrow hnd
    exact buildReportDocument_canonical templateHtml p s sprintLabel rows
      hsub hopen hclose hrow hnd

def c2wRow : TemplateRow := fun k =>
  if k = "id".toList then TemplateValue.num 42
  else if k = "assigned_to".toList then TemplateValue.str "Alice".toList
  else if k = "test_plan_link".toList then
    TemplateValue.str "https://x/y".toList
  else TemplateValue.undef

def c2wTemplate : List Char :=
  "<p>{sprint}</p><div>".toList ++ canonRow ++ "</div>".toList

def c2dRow : TemplateRow := fun _ => TemplateValue.str "x$&y".toList

theorem C2_witness :
    buildReportDocument c2wTemplate "W".toList [c2wRow] =
      .ok ("<p>W</p><div>".toList ++ canonTableRows [c2wRow] ++
        "</div>".toList) ∧
    buildReportDocument "<tr>{id}</tr>".toList "Z".toList [c2dRow] =
      .ok "<tr>x{id}amp;y</tr>".toList := by
  constructor
  · exact C2_fragment_replacement.2 c2wTemplate "<p>W</p><div>".toList
      "</div>".toList "W".toList [c2wRow] (by decide) (by decide) (by decide)
      (by decide) (by decide)
  · rw [C2_fragment_replacement.1 "<tr>{id}</tr>".toList "Z".toList
      "<tr>{id}</tr>".toList [c2dRow] (by exact List.cons_ne_nil _ _) (by rfl)]
    rfl

/-! ## Claim C3 (report title computation) -/

/-- C3 counterexample: the claim states that when the template title
contains no placeholder, the published title is the title with ` - ` and
the sprint label appended.  `computeReportTitle` only substitutes the
`{sprint}` placeholder; with no placeholder present it returns the
trimmed title unchanged and appends nothing. -/
theorem C3_counterexample :
    computeReportTitle "Weekly QA".toList "Sprint 7".toList =
      "Weekly QA".toList ∧
    "Weekly QA".toList ≠ "Weekly QA - Sprint 7".toList := by
  exact ⟨by rfl, by decide⟩

/-- C3 (amended): the published page title is computed from the trimmed
template title and the trimmed sprint label by substituting the label for
the first `{sprint}` placeholder of the title under `String.replace`
semantics (a label with no `$` substitution pattern is inserted
literally); when the title contains no placeholder it is returned
unchanged (nothing is appended); an empty trimmed title falls back to
`QA Report`, and an empty trimmed label returns the base title as is. -/
theorem C3_title_substitution :
    (∀ t s : List Char, jsTrim t ≠ [] →
      (∀ i < (jsTrim t).length,
        sprintPat.isPrefixOf ((jsTrim t).drop i) = false) →
      computeReportTitle t s = jsTrim t) ∧
    (∀ t s a b : List Char, jsTrim t = a ++ sprintPat ++ b →
      (∀ i < a.length,
        sprintPat.isPrefixOf ((jsTrim t).drop i) = false) →
      jsTrim s ≠ [] →
      computeReportTitle t s = a ++ expandRepl sprintPat a b (jsTrim s) ++ b) ∧
    (∀ t s a b : List Char, jsTrim t = a ++ sprintPat ++ b →
      (∀ i < a.length,
        sprintPat.isPrefixOf ((jsTrim t).drop i) = false) →
      jsTrim s ≠ [] → dollarSign ∉ jsTrim s →
      computeReportTitle t s = a ++ jsTrim s ++ b) ∧
    (∀ t s : List Char, jsTrim t = [] →
      computeReportTitle t s = "QA Report".toList) ∧
    (∀ t s : List Char, jsTrim s = [] →
      computeReportTitle t s =
        if jsTrim t = [] then "QA Report".toList else jsTrim t) := by
  have hgen : ∀ t s a b : List Char, jsTrim t = a ++ sprintPat ++ b →
      (∀ i < a.length,
        sprintPat.isPrefixOf ((jsTrim t).drop i) = false) →
      jsTrim s ≠ [] →
      computeReportTitle t s = a ++ expandRepl sprintPat a b (jsTrim s) ++ b := by
    intro t s a b hsplit hno hs
    have ht : jsTrim t ≠ [] := by
      rw [hsplit]
      intro hcon
      simp only [List.append_eq_nil] at hcon
      exact absurd hcon.1.2 (by decide)
    rw [computeReportTitle]
    simp only [if_neg ht, if_neg hs]
    have haligned : splitFirst sprintPat (jsTrim t) = some (a, b) := by
      rw [hsplit]
      exact splitFirst_aligned (by decide) a b (fun i hi => by
        have := hno i hi
        rwa [hsplit] at this)
    rw [replaceFirstExpand, haligned]
  refine ⟨?_, hgen, ?_, ?_, ?_⟩
  · intro t s ht hno
    rw [computeReportTitle]
    simp only [if_neg ht]
    by_cases hs : jsTrim s = []
    · rw [if_pos hs]
    · rw [if_neg hs]
      rw [replaceFirstExpand,
        splitFirst_no_occ (no_occ_extend (by decide) hno)]
  · intro t s a b hsplit hno hs hnd
    rw [hgen t s a b hsplit hno hs, expandRepl_no_dollar hnd]
  · intro t s ht
    rw [computeReportTitle]
    simp only [if_pos ht]
    by_cases hs : jsTrim s = []
    · rw [if_pos hs]
    · rw [if_neg hs]
      rw [replaceFirstExpand,
        splitFirst_no_occ (no_occ_extend (by decide) (by decide))]
  · intro t s hs
    rw [computeReportTitle]
    simp only [if_pos hs]

theorem C3_witness :
    computeReportTitle "Weekly QA".toList "S1".toList = "Weekly QA".toList ∧
    computeReportTitle "QA {sprint} Report".toList " S2 ".toList =
      "QA ".toList ++ "S2".toList ++ " Report".toList ∧
    computeReportTitle "{sprint}!".toList "$&x".toList =
      "{sprint}x!".toList ∧
    computeReportTitle "   ".toList "S1".toList = "QA Report".toList ∧
    computeReportTitle "T {sprint}".toList "  ".toList =
      "T {sprint}".toList := by
  refine ⟨?_, ?_, ?_, ?_, ?_⟩
  · exact C3_title_substitution.1 "Weekly QA".toList "S1".toList
      (by decide) (by decide)
  · exact C3_title_substitution.2.2.1 "QA {sprint} Report".toList
      " S2 ".toList "QA ".toList " Report".toList (by decide) (by decide)
      (by decide) (by decide)
  · rw [C3_title_substitution.2.1 "{sprint}!".toList "$&x".toList
      [] "!".toList (by decide) (by decide) (by decide)]
    rfl
  · exact C3_title_substitution.2.2.2.1 "   ".toList "S1".toList (by decide)
  · rw [C3_title_substitution.2.2.2.2 "T {sprint}".toList "  ".toList
      (by decide)]
    decide

/-! ## Claims C4 and C5 (sprint selection) -/

theorem containsSub_append_self (a pat b : List Char) :
    containsSub pat (a ++ pat ++ b) = true := by
  induction a with
  | nil =>
    simp only [List.nil_append]
    cases pat with
    | nil =>
      cases b with
      | nil => rfl
      | cons c r => simp [containsSub, List.isPrefixOf]
    | cons x ps =>
      simp only [List.cons_append]
      rw [containsSub]
      rw [← List.cons_append, isPrefixOf_append_self]
      rfl
  | cons c a' ih =>
    simp only [List.cons_append, List.append_assoc] at ih ⊢
    rw [containsSub, ih]
    simp

theorem pairwise_start_le_getLast {ws : List IterationWindow} (hne : ws ≠ [])
    (hs : ws.Pairwise (fun a b => a.start ≤ b.start)) :
    ∀ w ∈ ws, w.start ≤ (ws.getLast hne).start := by
  induction ws with
  | nil => exact absurd rfl hne
  | cons a rest ih =>
    intro w hw
    rw [List.pairwise_cons] at hs
    cases rest with
    | nil =>
      simp only [List.mem_singleton] at hw
      subst hw
      simp [List.getLast_singleton]
    | cons b rest2 =>
      rw [List.getLast_cons (by simp : b :: rest2 ≠ [])]
      rcases List.mem_cons.mp hw with hwa | hwrest
      · subst hwa
        exact le_trans (hs.1 _ (List.getLast_mem _))
          (le_refl _)
      · exact ih (by simp) hs.2 w hwrest

/-- C4: for every non-empty ascending-by-start list of iteration windows
and every `now`, selecting with no sprint query returns exactly one
window; the selected window contains `now` whenever some window does (and
is the unique containing window when containment is unique), and when no
window contains `now` the chronologically last window (the maximal start)
is selected. -/
theorem C4_no_query_selection (ws : List IterationWindow) (now : Int)
    (hne : ws ≠ [])
    (hsorted : ws.Pairwise (fun a b => a.start ≤ b.start)) :
    ∃ sel : IterationSelection,
      selectIterations ws none now = .ok sel ∧
      sel.iterations.length = 1 ∧
      ((∃ w ∈ ws, w.containsNow now = true) →
        ∃ w ∈ ws, w.containsNow now = true ∧ sel.iterations = [w] ∧
          sel.sprintLabel = w.name) ∧
      ((∀ w1 ∈ ws, ∀ w2 ∈ ws, w1.containsNow now = true →
          w2.containsNow now = true → w1 = w2) →
        ∀ w ∈ ws, w.containsNow now = true → sel.iterations = [w]) ∧
      ((∀ w ∈ ws, w.containsNow now = false) →
        sel.iterations = [ws.getLast hne] ∧
        ∀ w ∈ ws, w.start ≤ (ws.getLast hne).start) := by
  obtain ⟨a0, rest, rfl⟩ : ∃ a0 rest, ws = a0 :: rest := by
    cases ws with
    | nil => exact absurd rfl hne
    | cons a0 rest => exact ⟨a0, rest, rfl⟩
  rw [selectIterations]
  simp only [Option.getD_none, if_pos rfl]
  cases hfind : (a0 :: rest).find? (fun it => it.containsNow now) with
  | some current =>
    have hcmem := List.mem_of_find?_eq_some hfind
    have hcur : current.containsNow now = true := by
      have := List.find?_some hfind
      simpa using this
    refine ⟨⟨[current], current.name⟩, rfl, rfl, ?_, ?_, ?_⟩
    · intro _
      exact ⟨current, hcmem, hcur, rfl, rfl⟩
    · intro huniq w hw hcont
      have := huniq current hcmem w hw hcur hcont
      simp [this]
    · intro hnone
      have := hnone current hcmem
      rw [hcur] at this
      exact absurd this (by simp)
  | none =>
    rw [List.find?_eq_none] at hfind
    refine ⟨⟨[(a0 :: rest).getLast (by simp)], _⟩, rfl, rfl, ?_, ?_, ?_⟩
    · intro hcon
      obtain ⟨w, hw, hc⟩ := hcon
      exact absurd hc (hfind w hw)
    · intro _ w hw hc
      exact absurd hc (hfind w hw)
    · intro _
      exact ⟨rfl, pairwise_start_le_getLast hne hsorted⟩

theorem C4_witness :
    ∃ sel : IterationSelection,
      selectIterations
        [⟨0, 10, "S1".toList, none, none⟩,
         ⟨20, 30, "S2".toList, none, none⟩] none 25 = .ok sel ∧
      sel.iterations.length = 1 ∧
      ((∃ w ∈ [(⟨0, 10, "S1".toList, none, none⟩ : IterationWindow),
          ⟨20, 30, "S2".toList, none, none⟩], w.containsNow 25 = true) →
        ∃ w ∈ [(⟨0, 10, "S1".toList, none, none⟩ : IterationWindow),
          ⟨20, 30, "S2".toList, none, none⟩], w.containsNow 25 = true ∧
          sel.iterations = [w] ∧ sel.sprintLabel = w.name) ∧
      ((∀ w1 ∈ [(⟨0, 10, "S1".toList, none, none⟩ : IterationWindow),
          ⟨20, 30, "S2".toList, none, none⟩],
        ∀ w2 ∈ [(⟨0, 10, "S1".toList, none, none⟩ : IterationWindow),
          ⟨20, 30, "S2".toList, none, none⟩], w1.containsNow 25 = true →
          w2.containsNow 25 = true → w1 = w2) →
        ∀ w ∈ [(⟨0, 10, "S1".toList, none, none⟩ : IterationWindow),
          ⟨20, 30, "S2".toList, none, none⟩], w.containsNow 25 = true →
          sel.iterations = [w]) ∧
      ((∀ w ∈ [(⟨0, 10, "S1".toList, none, none⟩ : IterationWindow),
          ⟨20, 30, "S2".toList, none, none⟩], w.containsNow 25 = false) →
        sel.iterations =
          [List.getLast [(⟨0, 10, "S1".toList, none, none⟩ : IterationWindow),
            ⟨20, 30, "S2".toList, none, none⟩] (by decide)] ∧
        ∀ w ∈ [(⟨0, 10, "S1".toList, none, none⟩ : IterationWindow),
          ⟨20, 30, "S2".toList, none, none⟩],
          w.start ≤ (List.getLast
            [(⟨0, 10, "S1".toList, none, none⟩ : IterationWindow),
             ⟨20, 30, "S2".toList, none, none⟩] (by decide)).start) :=
  C4_no_query_selection
    [⟨0, 10, "S1".toList, none, none⟩, ⟨20, 30, "S2".toList, none, none⟩]
    25 (by decide) (by decide)

/-- C5: with a non-empty sprint query, a window holding an exact candidate
key for the normalized query is selected in preference to substring
matches (the exact-match search runs first and succeeds); and when no
window matches even by substring, selection fails with the
`no matching iteration` error, whose message contains the query. -/
theorem C5_query_selection (ws : List IterationWindow) (q : List Char)
    (now : Int) (hq : q ≠ []) :
    ((∃ w ∈ ws, normalizeIterationKey (some q) ∈ getCandidateKeys w) →
      ∃ w ∈ ws, normalizeIterationKey (some q) ∈ getCandidateKeys w ∧
        selectIterations ws (some q) now = .ok ⟨[w], w.name⟩) ∧
    (ws ≠ [] →
      (∀ w ∈ ws, ∀ k ∈ getCandidateKeys w,
        containsSub (normalizeIterationKey (some q)) k = false) →
      selectIterations ws (some q) now = .error (noIterationMessage q) ∧
      containsSub q (noIterationMessage q) = true) := by
  constructor
  · intro hex
    obtain ⟨w0, hw0, hkey0⟩ := hex
    obtain ⟨a0, rest, rfl⟩ : ∃ a0 rest, ws = a0 :: rest := by
      cases ws with
      | nil => simp at hw0
      | cons a0 rest => exact ⟨a0, rest, rfl⟩
    rw [selectIterations]
    simp only [Option.getD_some]
    rw [if_neg hq]
    have hpred0 : ((getCandidateKeys w0).any
        (fun k => k = normalizeIterationKey (some q))) = true := by
      rw [List.any_eq_true]
      exact ⟨normalizeIterationKey (some q), hkey0, by simp⟩
    have hissome : ((a0 :: rest).find? (fun it => (getCandidateKeys it).any
        (fun k => k = normalizeIterationKey (some q)))).isSome = true := by
      rw [List.find?_isSome]
      exact ⟨w0, hw0, hpred0⟩
    cases hfind : (a0 :: rest).find? (fun it => (getCandidateKeys it).any
        (fun k => k = normalizeIterationKey (some q))) with
    | none => rw [hfind] at hissome; simp at hissome
    | some m =>
      dsimp only
      have hmkey : normalizeIterationKey (some q) ∈ getCandidateKeys m := by
        have := List.find?_some hfind
        simp only [List.any_eq_true] at this
        obtain ⟨k, hk, hkq⟩ := this
        have : k = normalizeIterationKey (some q) := by simpa using hkq
        rwa [this] at hk
      exact ⟨m, List.mem_of_find?_eq_some hfind, hmkey, rfl⟩
  · intro hne hnosub
    obtain ⟨a0, rest, rfl⟩ : ∃ a0 rest, ws = a0 :: rest := by
      cases ws with
      | nil => exact absurd rfl hne
      | cons a0 rest => exact ⟨a0, rest, rfl⟩
    have hqq : containsSub (normalizeIterationKey (some q))
        (normalizeIterationKey (some q)) = true := by
      have := containsSub_append_self [] (normalizeIterationKey (some q)) []
      simpa using this
    have hfind1 : (a0 :: rest).find? (fun it => (getCandidateKeys it).any
        (fun k => k = normalizeIterationKey (some q))) = none := by
      rw [List.find?_eq_none]
      intro w hw hpred
      simp only [List.any_eq_true] at hpred
      obtain ⟨k, hk, hkq⟩ := hpred
      have hkq' : k = normalizeIterationKey (some q) := by simpa using hkq
      have := hnosub w hw k hk
      rw [hkq', hqq] at this
      exact absurd this (by simp)
    have hfind2 : (a0 :: rest).find? (fun it => (getCandidateKeys it).any
        (fun k => containsSub (normalizeIterationKey (some q)) k)) = none := by
      rw [List.find?_eq_none]
      intro w hw hpred
      simp only [List.any_eq_true] at hpred
      obtain ⟨k, hk, hkq⟩ := hpred
      have := hnosub w hw k hk
      rw [this] at hkq
      exact absurd hkq (by simp)
    rw [selectIterations]
    simp only [Option.getD_some]
    rw [if_neg hq]
    rw [hfind1, hfind2]
    refine ⟨rfl, ?_⟩
    show containsSub q
      ("Unable to find an iteration matching sprint \"".toList ++ q ++
        "\".".toList) = true
    exact containsSub_append_self _ q _

def c5exWindow : IterationWindow := ⟨0, 10, "Sprint 1".toList, none, none⟩

theorem C5_witness :
    (∃ w ∈ [c5exWindow],
      normalizeIterationKey (some "Sprint 1".toList) ∈ getCandidateKeys w ∧
      selectIterations [c5exWindow] (some "Sprint 1".toList) 0 =
        .ok ⟨[w], w.name⟩) ∧
    (selectIterations [c5exWindow] (some "zzz".toList) 0 =
      .error (noIterationMessage "zzz".toList) ∧
      containsSub "zzz".toList (noIterationMessage "zzz".toList) = true) := by
  constructor
  · exact (C5_query_selection [c5exWindow] "Sprint 1".toList 0
      (by decide)).1 (by decide)
  · exact (C5_query_selection [c5exWindow] "zzz".toList 0
      (by decide)).2 (by decide) (by decide)

/-! ## Claim C6 (work-item aggregation) -/

theorem dedupWorkItems_spec (findLink : List Char → Option (List Char)) :
    ∀ items seen,
    (∀ r ∈ dedupWorkItems findLink seen items, r.id ∉ seen) ∧
    ((dedupWorkItems findLink seen items).map (fun r => r.id)).Nodup := by
  intro items
  induction items with
  | nil => intro seen; exact ⟨by simp [dedupWorkItems], by simp [dedupWorkItems]⟩
  | cons w rest ih =>
    intro seen
    rw [dedupWorkItems]
    cases hid : w.id with
    | none => exact ih seen
    | some i =>
      dsimp only
      by_cases hmem : i ∈ seen
      · rw [if_pos hmem]
        exact ih seen
      · rw [if_neg hmem]
        obtain ⟨ihmem, ihnd⟩ := ih (i :: seen)
        constructor
        · intro r hr
          rcases List.mem_cons.mp hr with hr0 | hrtail
          · subst hr0
            exact hmem
          · intro hcon
            exact ihmem r hrtail (List.mem_cons_of_mem i hcon)
        · rw [List.map_cons, List.nodup_cons]
          constructor
          · intro hcon
            obtain ⟨r, hr, hrid⟩ := List.mem_map.mp hcon
            have := ihmem r hr
            rw [hrid] at this
            exact this (List.mem_cons_self _ _)
          · exact ihnd

theorem dedupWorkItems_first (findLink : List Char → Option (List Char)) :
    ∀ items seen, ∀ r ∈ dedupWorkItems findLink seen items,
    ∃ w, items.find? (fun w2 => w2.id = some r.id) = some w ∧
      r = buildReportRow findLink r.id w := by
  intro items
  induction items with
  | nil => intro seen r hr; simp [dedupWorkItems] at hr
  | cons w rest ih =>
    intro seen r hr
    rw [dedupWorkItems] at hr
    cases hid : w.id with
    | none =>
      rw [hid] at hr
      dsimp only at hr
      obtain ⟨w2, hfind, hbuild⟩ := ih seen r hr
      refine ⟨w2, ?_, hbuild⟩
      rw [List.find?_cons_of_neg _ (by simp [hid])]
      exact hfind
    | some i =>
      rw [hid] at hr
      dsimp only at hr
      by_cases hmem : i ∈ seen
      · rw [if_pos hmem] at hr
        obtain ⟨w2, hfind, hbuild⟩ := ih seen r hr
        have hrne : r.id ≠ i := by
          intro hcon
          have := (dedupWorkItems_spec findLink rest seen).1 r hr
          rw [hcon] at this
          exact this hmem
        refine ⟨w2, ?_, hbuild⟩
        rw [List.find?_cons_of_neg _ (by simp [hid, hrne.symm])]
        exact hfind
      · rw [if_neg hmem] at hr
        rcases List.mem_cons.mp hr with hr0 | hrtail
        · refine ⟨w, ?_, ?_⟩
          · rw [List.find?_cons_of_pos _ (by simp [hid, hr0, buildReportRow])]
          · rw [hr0]
            rfl
        · obtain ⟨w2, hfind, hbuild⟩ := ih (i :: seen) r hrtail
          have hrne : r.id ≠ i := by
            intro hcon
            have := (dedupWorkItems_spec findLink rest (i :: seen)).1 r hrtail
            rw [hcon] at this
            exact this (List.mem_cons_self _ _)
          refine ⟨w2, ?_, hbuild⟩
          rw [List.find?_cons_of_neg _ (by simp [hid, hrne.symm])]
          exact hfind

/-- C6: the aggregated report rows contain at most one row per numeric
identifier, each row is built from the first item bearing its identifier
across the concatenated per-window item streams, and the final list is
sorted ascending by assignee under the locale comparator `lc` (a
consistent comparator in the `Array.prototype.sort` sense, expressed by
the six sign/composition hypotheses) with ties broken by ascending
identifier. -/
theorem C6_rows_dedup_sorted (lc : List Char → List Char → Int)
    (itemss : List (List WorkItem))
    (findLink : List Char → Option (List Char))
    (h1 : ∀ a b, lc a b = 0 → lc b a = 0)
    (h2 : ∀ a b, 0 < lc a b → lc b a < 0)
    (h3 : ∀ a b c, lc a b < 0 → lc b c < 0 → lc a c < 0)
    (h4 : ∀ a b c, lc a b = 0 → lc b c = 0 → lc a c = 0)
    (h5 : ∀ a b c, lc a b < 0 → lc b c = 0 → lc a c < 0)
    (h6 : ∀ a b c, lc a b = 0 → lc b c < 0 → lc a c < 0) :
    ((gatherReportRows lc itemss findLink).map (fun r => r.id)).Nodup ∧
    (∀ r ∈ gatherReportRows lc itemss findLink,
      ∃ w, itemss.flatten.find? (fun w2 => w2.id = some r.id) = some w ∧
        r = buildReportRow findLink r.id w) ∧
    (gatherReportRows lc itemss findLink).Pairwise
      (fun r1 r2 => lc r1.assignedTo r2.assignedTo < 0 ∨
        (lc r1.assignedTo r2.assignedTo = 0 ∧ r1.id ≤ r2.id)) := by
  have hle_trans : ∀ a b c : ReportRow,
      decide (rowCompare lc a b ≤ 0) = true →
      decide (rowCompare lc b c ≤ 0) = true →
      decide (rowCompare lc a c ≤ 0) = true := by
    intro a b c hab hbc
    simp only [decide_eq_true_eq] at hab hbc ⊢
    rw [rowCompare] at hab hbc ⊢
    by_cases e1 : lc a.assignedTo b.assignedTo = 0
    · rw [if_neg (by simpa using e1)] at hab
      by_cases e2 : lc b.assignedTo c.assignedTo = 0
      · rw [if_neg (by simpa using e2)] at hbc
        have := h4 _ _ _ e1 e2
        rw [if_neg (by simpa using this)]
        omega
      · rw [if_pos (by simpa using e2)] at hbc
        have hlt : lc b.assignedTo c.assignedTo < 0 := by omega
        have := h6 _ _ _ e1 hlt
        rw [if_pos (by simp; omega)]
        omega
    · rw [if_pos (by simpa using e1)] at hab
      have hlt1 : lc a.assignedTo b.assignedTo < 0 := by
        rcases lt_or_gt_of_ne e1 with h | h
        · exact h
        · omega
      by_cases e2 : lc b.assignedTo c.assignedTo = 0
      · have := h5 _ _ _ hlt1 e2
        rw [if_pos (by simp; omega)]
        omega
      · rw [if_pos (by simpa using e2)] at hbc
        have hlt2 : lc b.assignedTo c.assignedTo < 0 := by omega
        have := h3 _ _ _ hlt1 hlt2
        rw [if_pos (by simp; omega)]
        omega
  have hle_total : ∀ a b : ReportRow,
      (decide (rowCompare lc a b ≤ 0) || decide (rowCompare lc b a ≤ 0)) =
        true := by
    intro a b
    simp only [Bool.or_eq_true, decide_eq_true_eq]
    rw [rowCompare, rowCompare]
    by_cases e1 : lc a.assignedTo b.assignedTo = 0
    · have e2 := h1 _ _ e1
      rw [if_neg (by simpa using e1), if_neg (by simpa using e2)]
      omega
    · rcases lt_or_gt_of_ne e1 with h | h
      · left
        rw [if_pos (by simpa using e1)]
        omega
      · right
        have := h2 _ _ h
        rw [if_pos (by simp; omega)]
        omega
  have hperm : (gatherReportRows lc itemss findLink).Perm
      (dedupWorkItems findLink [] itemss.flatten) := by
    rw [gatherReportRows]
    exact List.mergeSort_perm _ _
  refine ⟨?_, ?_, ?_⟩
  · have hnd := (dedupWorkItems_spec findLink itemss.flatten []).2
    have hpm : ((gatherReportRows lc itemss findLink).map
        (fun r => r.id)).Perm
        ((dedupWorkItems findLink [] itemss.flatten).map (fun r => r.id)) :=
      hperm.map _
    exact (hpm.nodup_iff).mpr hnd
  · intro r hr
    have hr' : r ∈ dedupWorkItems findLink [] itemss.flatten :=
      (hperm.mem_iff).mp hr
    exact dedupWorkItems_first findLink itemss.flatten [] r hr'
  · have hsorted := @List.sorted_mergeSort ReportRow
      (fun a b => decide (rowCompare lc a b ≤ 0))
      hle_trans hle_total (dedupWorkItems findLink [] itemss.flatten)
    rw [gatherReportRows]
    refine List.Pairwise.imp ?_ hsorted
    intro a b hab
    simp only [decide_eq_true_eq] at hab
    rw [rowCompare] at hab
    by_cases e1 : lc a.assignedTo b.assignedTo = 0
    · rw [if_neg (by simpa using e1)] at hab
      right
      exact ⟨e1, by omega⟩
    · rw [if_pos (by simpa using e1)] at hab
      left
      omega

def c6lc : List Char → List Char → Int := fun _ _ => 0

def c6link : List Char → Option (List Char) := fun _ => none

def c6items : List (List WorkItem) :=
  [[⟨some 2, .strVal "Bob".toList⟩, ⟨some 1, .absent⟩,
    ⟨some 2, .strVal "Eve".toList⟩], [⟨some 1, .strVal "Zed".toList⟩]]

theorem C6_witness :
    ((gatherReportRows c6lc c6items c6link).map (fun r => r.id)).Nodup ∧
    (∀ r ∈ gatherReportRows c6lc c6items c6link,
      ∃ w, c6items.flatten.find? (fun w2 => w2.id = some r.id) = some w ∧
        r = buildReportRow c6link r.id w) ∧
    (gatherReportRows c6lc c6items c6link).Pairwise
      (fun r1 r2 => c6lc r1.assignedTo r2.assignedTo < 0 ∨
        (c6lc r1.assignedTo r2.assignedTo = 0 ∧ r1.id ≤ r2.id)) :=
  by
  refine C6_rows_dedup_sorted c6lc c6items c6link ?_ ?_ ?_ ?_ ?_ ?_
  · intro a b _; rfl
  · intro a b h; simp [c6lc] at h
  · intro a b c h _; simp [c6lc] at h
  · intro a b c _ _; rfl
  · intro a b c h _; simp [c6lc] at h
  · intro a b c _ h; simp [c6lc] at h

/-! ## Suite-index invariants -/

theorem lookupIndex_nil (k : List Char) : lookupIndex [] k = none := rfl

theorem lookupIndex_cons (e : List Char × List Char)
    (m : List (List Char × List Char)) (k : List Char) :
    lookupIndex (e :: m) k = if e.1 = k then some e.2 else lookupIndex m k := by
  rw [lookupIndex]
  by_cases he : e.1 = k
  · rw [List.find?_cons_of_pos _ (by simp [he]), if_pos he]
  · rw [List.find?_cons_of_neg _ (by simp [he]), if_neg he]
    rfl

theorem lookupIndex_append_single (key v k : List Char) :
    ∀ m0 : List (List Char × List Char),
    lookupIndex (m0 ++ [(key, v)]) k =
      match lookupIndex m0 k with
      | some w => some w
      | none => if key = k then some v else none := by
  intro m0
  induction m0 with
  | nil =>
    rw [List.nil_append, lookupIndex_cons]
    rfl
  | cons e m ih =>
    rw [List.cons_append, lookupIndex_cons, lookupIndex_cons, ih]
    by_cases he : e.1 = k
    · rw [if_pos he, if_pos he]
    · rw [if_neg he, if_neg he]

theorem lookupIndex_none_notMem (m : List (List Char × List Char))
    (k : List Char) (h : lookupIndex m k = none) : k ∉ m.map Prod.fst := by
  intro hmem
  obtain ⟨e, he, hek⟩ := List.mem_map.mp hmem
  rw [lookupIndex] at h
  cases hf : m.find? (fun e2 => e2.1 = k) with
  | some e2 => rw [hf] at h; simp at h
  | none =>
    have h2 := List.find?_eq_none.mp hf e he
    simp [hek] at h2

theorem addSuite_eq (ob ps : List Char) (m : List (List Char × List Char))
    (entry : TestPlan × TestSuite) :
    addSuite ob ps m entry =
      if jsTrim (entry.2.name.getD []) = [] then m
      else if (lookupIndex m (jsTrim (entry.2.name.getD []))).isSome then m
      else m ++ [(jsTrim (entry.2.name.getD []),
        suiteLink ob ps entry.1 entry.2)] := rfl

theorem foldl_addSuite_lookupEq (ob ps : List Char) :
    ∀ (visits : List (TestPlan × TestSuite))
      (m0 : List (List Char × List Char)) (k : List Char), k ≠ [] →
      lookupIndex (visits.foldl (addSuite ob ps) m0) k =
        match lookupIndex m0 k with
        | some v => some v
        | none =>
          (visits.find? (fun e => jsTrim (e.2.name.getD []) = k)).map
            (fun e => suiteLink ob ps e.1 e.2) := by
  intro visits
  induction visits with
  | nil =>
    intro m0 k _
    rw [List.foldl_nil, List.find?_nil]
    cases h : lookupIndex m0 k <;> rfl
  | cons e vs ih =>
    intro m0 k hk
    rw [List.foldl_cons, ih (addSuite ob ps m0 e) k hk, addSuite_eq]
    by_cases hkey : jsTrim (e.2.name.getD []) = []
    · rw [if_pos hkey]
      rw [List.find?_cons_of_neg _
        (by simp only [decide_eq_true_eq]; intro hcon; exact hk (hcon ▸ hkey))]
    · rw [if_neg hkey]
      cases hpres : lookupIndex m0 (jsTrim (e.2.name.getD [])) with
      | some w =>
        rw [if_pos (by rfl)]
        by_cases hek : jsTrim (e.2.name.getD []) = k
        · rw [hek] at hpres
          rw [hpres]
        · rw [List.find?_cons_of_neg _ (by simpa using hek)]
      | none =>
        rw [if_neg (by simp)]
        rw [lookupIndex_append_single]
        by_cases hek : jsTrim (e.2.name.getD []) = k
        · rw [if_pos hek]
          rw [hek] at hpres
          rw [hpres]
          rw [List.find?_cons_of_pos _ (by simpa using hek)]
          rfl
        · rw [if_neg hek]
          rw [List.find?_cons_of_neg _ (by simpa using hek)]
          cases hm : lookupIndex m0 k <;> rfl

theorem buildSuiteIndex_lookupEq (orgUrl project : List Char)
    (visits : List (TestPlan × TestSuite)) (k : List Char) (hk : k ≠ []) :
    lookupIndex (buildSuiteIndex orgUrl project visits) k =
      (visits.find? (fun e => jsTrim (e.2.name.getD []) = k)).map
        (fun e => suiteLink (stripTrailingSlashes orgUrl)
          (encodeURIComponent project) e.1 e.2) := by
  rw [buildSuiteIndex, foldl_addSuite_lookupEq _ _ visits [] k hk]
  rfl

theorem foldl_addSuite_mem (ob ps : List Char) :
    ∀ (visits : List (TestPlan × TestSuite))
      (m0 : List (List Char × List Char)) (kv : List Char × List Char),
      kv ∈ visits.foldl (addSuite ob ps) m0 →
      kv ∈ m0 ∨ (kv.1 ≠ [] ∧ ∃ e ∈ visits,
        jsTrim (e.2.name.getD []) = kv.1 ∧ kv.2 = suiteLink ob ps e.1 e.2) := by
  intro visits
  induction visits with
  | nil => intro m0 kv h; rw [List.foldl_nil] at h; exact Or.inl h
  | cons e vs ih =>
    intro m0 kv h
    rw [List.foldl_cons] at h
    rcases ih (addSuite ob ps m0 e) kv h with hm | ⟨hne, e2, he2, hkey2, hlink⟩
    · rw [addSuite_eq] at hm
      by_cases hkey : jsTrim (e.2.name.getD []) = []
      · rw [if_pos hkey] at hm; exact Or.inl hm
      · rw [if_neg hkey] at hm
        by_cases hpres : (lookupIndex m0 (jsTrim (e.2.name.getD []))).isSome =
            true
        · rw [if_pos hpres] at hm; exact Or.inl hm
        · rw [if_neg hpres] at hm
          rcases List.mem_append.mp hm with h1 | h1
          · exact Or.inl h1
          · right
            have hkv : kv = (jsTrim (e.2.name.getD []),
                suiteLink ob ps e.1 e.2) := by simpa using h1
            subst hkv
            exact ⟨hkey, e, List.mem_cons_self e vs, rfl, rfl⟩
    · exact Or.inr ⟨hne, e2, List.mem_cons_of_mem e he2, hkey2, hlink⟩

theorem foldl_addSuite_nodup (ob ps : List Char) :
    ∀ (visits : List (TestPlan × TestSuite))
      (m0 : List (List Char × List Char)),
      (m0.map Prod.fst).Nodup →
      ((visits.foldl (addSuite ob ps) m0).map Prod.fst).Nodup := by
  intro visits
  induction visits with
  | nil => intro m0 h; rw [List.foldl_nil]; exact h
  | cons e vs ih =>
    intro m0 h
    rw [List.foldl_cons]
    apply ih
    rw [addSuite_eq]
    by_cases hkey : jsTrim (e.2.name.getD []) = []
    · rw [if_pos hkey]; exact h
    · rw [if_neg hkey]
      by_cases hpres : (lookupIndex m0 (jsTrim (e.2.name.getD []))).isSome =
          true
      · rw [if_pos hpres]; exact h
      · rw [if_neg hpres]
        simp only [List.map_append, List.map_cons, List.map_nil]
        rw [List.nodup_append]
        refine ⟨h, List.nodup_singleton _, ?_⟩
        intro a ha hb
        have hb2 : a = jsTrim (e.2.name.getD []) := by simpa using hb
        subst hb2
        have hnone : lookupIndex m0 (jsTrim (e.2.name.getD [])) = none := by
          cases hx : lookupIndex m0 (jsTrim (e.2.name.getD []))
          · rfl
          · exfalso; rw [hx] at hpres; exact hpres rfl
        exact lookupIndex_none_notMem m0 _ hnone ha

/-- C7: during the suite-index build an entry `trim(suite.name) -> link` is
recorded only for a non-empty trimmed title that is not already a key of the
index (first occurrence wins: a lookup returns the link of the first visited
suite whose trimmed name matches, later duplicates are silently dropped and
keys stay pairwise distinct), and every recorded link has the form
`{orgBase}/{urlEncodedProject}/_testPlans/execute?planId={planId}&suiteId={suiteId}`;
`visits` ranges over every walk prefix, so the invariant holds after every
`addSuite` step. -/
theorem C7_suite_index_invariant (orgUrl project : List Char)
    (visits : List (TestPlan × TestSuite)) :
    (∀ k : List Char, k ≠ [] →
      lookupIndex (buildSuiteIndex orgUrl project visits) k =
        (visits.find? (fun e => jsTrim (e.2.name.getD []) = k)).map
          (fun e => suiteLink (stripTrailingSlashes orgUrl)
            (encodeURIComponent project) e.1 e.2)) ∧
    (∀ kv ∈ buildSuiteIndex orgUrl project visits,
      kv.1 ≠ [] ∧ ∃ e ∈ visits, jsTrim (e.2.name.getD []) = kv.1 ∧
        kv.2 = stripTrailingSlashes orgUrl ++ '/' ::
          encodeURIComponent project ++ "/_testPlans/execute?planId=".toList ++
          (toString e.1.id).toList ++ "&suiteId=".toList ++
          (toString e.2.id).toList) ∧
    ((buildSuiteIndex orgUrl project visits).map Prod.fst).Nodup := by
  refine ⟨?_, ?_, ?_⟩
  · intro k hk
    exact buildSuiteIndex_lookupEq orgUrl project visits k hk
  · intro kv hkv
    rw [buildSuiteIndex] at hkv
    rcases foldl_addSuite_mem _ _ visits [] kv hkv with h | ⟨h1, e, he, h2, h3⟩
    · simp at h
    · exact ⟨h1, e, he, h2, h3⟩
  · rw [buildSuiteIndex]
    exact foldl_addSuite_nodup (stripTrailingSlashes orgUrl)
      (encodeURIComponent project) visits [] (by simp)

def c7visits : List (TestPlan × TestSuite) :=
  [(⟨1⟩, ⟨10, some "  Login  ".toList⟩),
   (⟨2⟩, ⟨20, some "Login".toList⟩),
   (⟨3⟩, ⟨30, some "   ".toList⟩),
   (⟨4⟩, ⟨40, none⟩)]

theorem C7_witness :
    lookupIndex (buildSuiteIndex "https://org//".toList "My Proj".toList
        c7visits) "Login".toList =
      some (suiteLink (stripTrailingSlashes "https://org//".toList)
        (encodeURIComponent "My Proj".toList) ⟨1⟩
        ⟨10, some "  Login  ".toList⟩) ∧
    ((buildSuiteIndex "https://org//".toList "My Proj".toList c7visits).map
      Prod.fst).Nodup := by
  refine ⟨?_, (C7_suite_index_invariant "https://org//".toList
    "My Proj".toList c7visits).2.2⟩
  rw [(C7_suite_index_invariant "https://org//".toList "My Proj".toList
    c7visits).1 "Login".toList (by decide)]
  rfl

/-! ## Publish version rule -/

/-- C8: the update payload submits exactly `existing.versionNumber + 1`
(so the submitted version is strictly greater than the current one on
every update cycle), and handling a create response that carries no
explicit version yields a page summary whose version defaults to `1`. -/
theorem C8_publish_version_rule (existing : ConfluencePageSummary)
    (spaceKey title html : List Char)
    (configParentPageId templateParentPageId : Option (List Char))
    (resp : ConfluenceContentResponse) :
    (updatePagePayload existing spaceKey title html configParentPageId
        templateParentPageId).versionNumber =
      some (existing.versionNumber + 1) ∧
    (∀ v : Int, (updatePagePayload existing spaceKey title html
        configParentPageId templateParentPageId).versionNumber = some v →
      existing.versionNumber < v) ∧
    (resp.versionNumber = none → ∀ rid : List Char, resp.id = some rid →
      createPageResult title resp =
        .ok { id := rid, title := resp.title.getD title,
              versionNumber := 1 }) := by
  refine ⟨rfl, ?_, ?_⟩
  · intro v hv
    have h2 : existing.versionNumber + 1 = v :=
      Option.some.inj (hv : some (existing.versionNumber + 1) = some v)
    omega
  · intro hv rid hrid
    rw [createPageResult, hrid, hv]
    rfl

def c8existing : ConfluencePageSummary :=
  { id := "123".toList, title := "QA Report - S1".toList, versionNumber := 4 }

def c8resp : ConfluenceContentResponse :=
  { id := some "456".toList, title := none, versionNumber := none }

theorem C8_witness :
    (updatePagePayload c8existing "SP".toList "T".toList "<p></p>".toList
        none none).versionNumber = some 5 ∧
    c8existing.versionNumber < 5 ∧
    createPageResult "T".toList c8resp =
      .ok { id := "456".toList, title := "T".toList, versionNumber := 1 } := by
  obtain ⟨h1, h2, h3⟩ := C8_publish_version_rule c8existing "SP".toList
    "T".toList "<p></p>".toList none none c8resp
  exact ⟨h1.trans (by decide), h2 5 (h1.trans (by decide)),
    h3 rfl "456".toList rfl⟩

/-! ## Slugify invariants -/

theorem charOfNat_toNat (n : Nat) (h : n.isValidChar) :
    (Char.ofNat n).toNat = n := by
  rw [Char.ofNat, dif_pos h]
  rfl

theorem toLower_upper_toNat (c : Char) (h : 65 ≤ c.toNat ∧ c.toNat ≤ 90) :
    c.toLower.toNat = c.toNat + 32 := by
  have heq : c.toLower = Char.ofNat (c.toNat + 32) := by
    simp only [Char.toLower]
    rw [if_pos ⟨h.1, h.2⟩]
  rw [heq]
  exact charOfNat_toNat _ (Or.inl (by omega))

theorem toLower_notUpper (c : Char) (h : ¬(c.toNat ≥ 65 ∧ c.toNat ≤ 90)) :
    c.toLower = c := by
  simp only [Char.toLower]
  rw [if_neg h]

theorem toLower_idem (c : Char) : c.toLower.toLower = c.toLower := by
  by_cases h : 65 ≤ c.toNat ∧ c.toNat ≤ 90
  · have h2 := toLower_upper_toNat c h
    apply toLower_notUpper
    omega
  · rw [toLower_notUpper c h]
    exact toLower_notUpper c h

theorem illegal_code {c : Char} (h : illegalFilenameChar c = true) :
    c.toNat = 60 ∨ c.toNat = 62 ∨ c.toNat = 58 ∨ c.toNat = 34 ∨
    c.toNat = 47 ∨ c.toNat = 92 ∨ c.toNat = 124 ∨ c.toNat = 63 ∨
    c.toNat = 42 := by
  simp only [illegalFilenameChar, Bool.or_eq_true, decide_eq_true_eq] at h
  rcases h with ((((((((h|h)|h)|h)|h)|h)|h)|h)|h) <;> subst h <;> decide

theorem jsWs_code {c : Char} (h : isJsWs c = true) :
    c.toNat = 32 ∨ c.toNat = 9 ∨ c.toNat = 10 ∨ c.toNat = 11 ∨
    c.toNat = 12 ∨ c.toNat = 13 ∨ c.toNat = 160 ∨ c.toNat = 5760 ∨
    (8192 ≤ c.toNat ∧ c.toNat ≤ 8202) ∨ c.toNat = 8232 ∨
    c.toNat = 8233 ∨ c.toNat = 8239 ∨ c.toNat = 8287 ∨
    c.toNat = 12288 ∨ c.toNat = 65279 := by
  simp only [isJsWs, Bool.or_eq_true, decide_eq_true_eq,
    Bool.and_eq_true] at h
  tauto

theorem illegal_toLower (c : Char) (h : illegalFilenameChar c = false) :
    illegalFilenameChar c.toLower = false := by
  by_cases hu : 65 ≤ c.toNat ∧ c.toNat ≤ 90
  · have h2 := toLower_upper_toNat c hu
    cases hx : illegalFilenameChar c.toLower with
    | false => rfl
    | true =>
      exfalso
      have h3 := illegal_code hx
      omega
  · rw [toLower_notUpper c hu]
    exact h

theorem jsWs_toLower (c : Char) (h : isJsWs c = false) :
    isJsWs c.toLower = false := by
  by_cases hu : 65 ≤ c.toNat ∧ c.toNat ≤ 90
  · have h2 := toLower_upper_toNat c hu
    cases hx : isJsWs c.toLower with
    | false => rfl
    | true =>
      exfalso
      have h3 := jsWs_code hx
      omega
  · rw [toLower_notUpper c hu]
    exact h

theorem toLower_dash (c : Char) : c.toLower = '-' ↔ c = '-' := by
  constructor
  · intro h
    by_cases hu : 65 ≤ c.toNat ∧ c.toNat ≤ 90
    · exfalso
      have h2 := toLower_upper_toNat c hu
      have h3 : c.toLower.toNat = 45 := by rw [h]; rfl
      omega
    · rw [toLower_notUpper c hu] at h
      exact h
  · intro h
    subst h
    decide

theorem collapseRuns_mem_bound (p : Char → Bool) (r : Char) :
    ∀ (n : Nat) (l : List Char), l.length ≤ n → ∀ c ∈ collapseRuns p r l,
      c = r ∨ (c ∈ l ∧ p c = false) := by
  intro n
  induction n with
  | zero =>
    intro l h c hc
    have hl : l = [] := List.length_eq_zero.mp (by omega)
    subst hl
    rw [collapseRuns_nil] at hc
    simp at hc
  | succ m ih =>
    intro l h c hc
    cases l with
    | nil => rw [collapseRuns_nil] at hc; simp at hc
    | cons a rest =>
      rw [collapseRuns_cons] at hc
      simp only [List.length_cons] at h
      cases hpa : p a with
      | true =>
        rw [if_pos hpa] at hc
        rcases List.mem_cons.mp hc with h1 | h1
        · exact Or.inl h1
        · have hlen : (rest.dropWhile p).length ≤ m := by
            have := List.Sublist.length_le
              (List.dropWhile_sublist (l := rest) p)
            omega
          rcases ih (rest.dropWhile p) hlen c h1 with h2 | ⟨h2, h3⟩
          · exact Or.inl h2
          · exact Or.inr ⟨List.mem_cons_of_mem a
              ((List.dropWhile_sublist (l := rest) p).subset h2), h3⟩
      | false =>
        rw [if_neg (by rw [hpa]; exact Bool.false_ne_true)] at hc
        rcases List.mem_cons.mp hc with h1 | h1
        · rw [h1]
          exact Or.inr ⟨List.mem_cons_self a rest, hpa⟩
        · rcases ih rest (by omega) c h1 with h2 | ⟨h2, h3⟩
          · exact Or.inl h2
          · exact Or.inr ⟨List.mem_cons_of_mem a h2, h3⟩

theorem collapseRuns_mem (p : Char → Bool) (r : Char) (l : List Char)
    (c : Char) (hc : c ∈ collapseRuns p r l) :
    c = r ∨ (c ∈ l ∧ p c = false) :=
  collapseRuns_mem_bound p r l.length l (le_refl _) c hc

theorem collapseRuns_chain_bound (p : Char → Bool) (r : Char) :
    ∀ (n : Nat) (l : List Char), l.length ≤ n →
      (collapseRuns p r l).Chain' (fun a b => p a = true → p b = false) := by
  intro n
  induction n with
  | zero =>
    intro l h
    have hl : l = [] := List.length_eq_zero.mp (by omega)
    subst hl
    rw [collapseRuns_nil]
    exact List.chain'_nil
  | succ m ih =>
    intro l h
    cases l with
    | nil => rw [collapseRuns_nil]; exact List.chain'_nil
    | cons a rest =>
      rw [collapseRuns_cons]
      simp only [List.length_cons] at h
      cases hpa : p a with
      | false =>
        rw [if_neg Bool.false_ne_true]
        refine List.chain'_cons'.mpr ⟨?_, ih rest (by omega)⟩
        intro b _ hpa2
        rw [hpa] at hpa2
        exact absurd hpa2 Bool.false_ne_true
      | true =>
        rw [if_pos rfl]
        have hlen : (rest.dropWhile p).length ≤ m := by
          have := List.Sublist.length_le (List.dropWhile_sublist (l := rest) p)
          omega
        refine List.chain'_cons'.mpr ⟨?_, ih (rest.dropWhile p) hlen⟩
        intro b hb _
        cases hdw : rest.dropWhile p with
        | nil =>
          rw [hdw, collapseRuns_nil] at hb
          simp at hb
        | cons d ds =>
          have hpd : p d = false := by
            have h2 := List.head?_dropWhile_not p rest
            rw [hdw] at h2
            simpa using h2
          rw [hdw, collapseRuns_cons,
            if_neg (by rw [hpd]; exact Bool.false_ne_true)] at hb
          have hbd : d = b := by simpa using hb
          subst hbd
          exact hpd

theorem collapseRuns_chain (p : Char → Bool) (r : Char) (l : List Char) :
    (collapseRuns p r l).Chain' (fun a b => p a = true → p b = false) :=
  collapseRuns_chain_bound p r l.length l (le_refl _)

theorem collapseRuns_eq_self (p : Char → Bool) (r : Char) :
    ∀ l : List Char, (∀ c ∈ l, p c = false) → collapseRuns p r l = l := by
  intro l
  induction l with
  | nil => intro _; rfl
  | cons a rest ih =>
    intro h
    rw [collapseRuns_cons]
    have ha : p a = false := h a (List.mem_cons_self a rest)
    rw [if_neg (by rw [ha]; exact Bool.false_ne_true)]
    rw [ih (fun c hc => h c (List.mem_cons_of_mem a hc))]

theorem collapseRuns_dash_eq_self :
    ∀ l : List Char, l.Chain' (fun a b => a = '-' → b ≠ '-') →
      collapseRuns (fun c => c = '-') '-' l = l := by
  intro l
  induction l with
  | nil => intro _; rfl
  | cons a rest ih =>
    intro h
    obtain ⟨hhead, htail⟩ := List.chain'_cons'.mp h
    rw [collapseRuns_cons]
    by_cases ha : a = '-'
    · rw [if_pos (by simpa using ha)]
      have hrest : rest.dropWhile (fun c => decide (c = '-')) = rest := by
        cases rest with
        | nil => rfl
        | cons b rbs =>
          have hb : b ≠ '-' := hhead b rfl ha
          rw [List.dropWhile_cons, if_neg (by simpa using hb)]
      rw [hrest, ih htail, ha]
    · rw [if_neg (by simpa using ha), ih htail]

theorem chain_of_no_dash (r : Char) :
    ∀ l : List Char, (∀ c ∈ l, c ≠ r) →
      l.Chain' (fun a b => a = r → b ≠ r) := by
  intro l
  induction l with
  | nil => intro _; exact List.chain'_nil
  | cons a rest ih =>
    intro h
    refine List.chain'_cons'.mpr
      ⟨?_, ih (fun c hc => h c (List.mem_cons_of_mem a hc))⟩
    intro b _ hb
    exact absurd hb (h a (List.mem_cons_self a rest))

theorem dropWhile_eq_self_of_all (p : Char → Bool) (l : List Char)
    (h : ∀ c ∈ l, p c = false) : l.dropWhile p = l := by
  cases l with
  | nil => rfl
  | cons a rest =>
    rw [List.dropWhile_cons, if_neg (by
      rw [h a (List.mem_cons_self a rest)]; exact Bool.false_ne_true)]

theorem jsTrim_eq_self (l : List Char) (h : ∀ c ∈ l, isJsWs c = false) :
    jsTrim l = l := by
  rw [jsTrim]
  rw [dropWhile_eq_self_of_all isJsWs l h]
  rw [dropWhile_eq_self_of_all isJsWs l.reverse
    (fun c hc => h c (List.mem_reverse.mp hc))]
  exact List.reverse_reverse l

theorem jsTrim_subset (l : List Char) : ∀ c ∈ jsTrim l, c ∈ l := by
  intro c hc
  rw [jsTrim, List.mem_reverse] at hc
  have h1 := (List.dropWhile_sublist
    (l := (l.dropWhile isJsWs).reverse) isJsWs).subset hc
  rw [List.mem_reverse] at h1
  exact (List.dropWhile_sublist (l := l) isJsWs).subset h1

/-- The dash-collapsed, whitespace-collapsed core of `slugifyString`
(everything before the final lowercasing and `report` fallback). -/
def slugCore (value : List Char) : List Char :=
  collapseRuns (fun c => c = '-') '-'
    (collapseRuns isJsWs '-'
      (jsTrim (collapseRuns isJsWs ' '
        ((jsTrim value).filter (fun c => !illegalFilenameChar c)))))

theorem slugifyString_eq (value : List Char) :
    slugifyString value =
      if (slugCore value).map Char.toLower = [] then "report".toList
      else (slugCore value).map Char.toLower := rfl

theorem slugCore_no_illegal (value : List Char) :
    ∀ c ∈ slugCore value, illegalFilenameChar c = false := by
  intro c hc
  rw [slugCore] at hc
  rcases collapseRuns_mem _ _ _ c hc with h | ⟨h, _⟩
  · subst h; decide
  · rcases collapseRuns_mem _ _ _ c h with h2 | ⟨h2, _⟩
    · subst h2; decide
    · have h3 := jsTrim_subset _ c h2
      rcases collapseRuns_mem _ _ _ c h3 with h4 | ⟨h4, _⟩
      · subst h4; decide
      · have h5 := List.mem_filter.mp h4
        simpa using h5.2

theorem slugCore_no_ws (value : List Char) :
    ∀ c ∈ slugCore value, isJsWs c = false := by
  intro c hc
  rw [slugCore] at hc
  rcases collapseRuns_mem _ _ _ c hc with h | ⟨h, _⟩
  · subst h; decide
  · rcases collapseRuns_mem _ _ _ c h with h2 | ⟨_, h3⟩
    · subst h2; decide
    · exact h3

theorem slugCore_chain (value : List Char) :
    (slugCore value).Chain' (fun a b => a = '-' → b ≠ '-') := by
  rw [slugCore]
  refine List.Chain'.imp ?_ (collapseRuns_chain (fun c => c = '-') '-' _)
  intro a b hab ha hb
  have h1 : decide (a = '-') = true := by simpa using ha
  have h2 := hab h1
  simp [hb] at h2

theorem slug_invariants (value : List Char) :
    (∀ c ∈ slugifyString value, illegalFilenameChar c = false) ∧
    (∀ c ∈ slugifyString value, isJsWs c = false) ∧
    (slugifyString value).Chain' (fun a b => a = '-' → b ≠ '-') ∧
    (slugifyString value).map Char.toLower = slugifyString value ∧
    slugifyString value ≠ [] := by
  rw [slugifyString_eq]
  by_cases h : (slugCore value).map Char.toLower = []
  · rw [if_pos h]
    exact ⟨by decide, by decide, chain_of_no_dash '-' _ (by decide),
      by decide, by decide⟩
  · rw [if_neg h]
    refine ⟨?_, ?_, ?_, ?_, h⟩
    · intro c hc
      obtain ⟨d, hd, rfl⟩ := List.mem_map.mp hc
      exact illegal_toLower d (slugCore_no_illegal value d hd)
    · intro c hc
      obtain ⟨d, hd, rfl⟩ := List.mem_map.mp hc
      exact jsWs_toLower d (slugCore_no_ws value d hd)
    · rw [List.chain'_map]
      refine List.Chain'.imp ?_ (slugCore_chain value)
      intro a b hab hla hlb
      exact hab ((toLower_dash a).mp hla) ((toLower_dash b).mp hlb)
    · rw [List.map_map]
      refine List.map_congr_left ?_
      intro a _
      exact toLower_idem a

theorem slug_all_bad (value : List Char)
    (h : ∀ c ∈ value, illegalFilenameChar c = true ∨ isJsWs c = true) :
    slugifyString value = "report".toList := by
  have hwi : ∀ c ∈ (jsTrim value).filter (fun c => !illegalFilenameChar c),
      isJsWs c = true := by
    intro c hc
    have h2 := List.mem_filter.mp hc
    have h3 := jsTrim_subset value c h2.1
    rcases h c h3 with h4 | h4
    · exfalso
      have h5 := h2.2
      rw [h4] at h5
      simp at h5
    · exact h4
  have hcw : jsTrim (collapseRuns isJsWs ' '
      ((jsTrim value).filter (fun c => !illegalFilenameChar c))) = [] := by
    cases hx : (jsTrim value).filter (fun c => !illegalFilenameChar c) with
    | nil => rfl
    | cons a rest =>
      rw [collapseRuns_cons]
      have ha : isJsWs a = true :=
        hwi a (by rw [hx]; exact List.mem_cons_self a rest)
      rw [if_pos ha]
      have hrest : rest.dropWhile isJsWs = [] := by
        rw [List.dropWhile_eq_nil_iff]
        intro x hxm
        exact hwi x (by rw [hx]; exact List.mem_cons_of_mem a hxm)
      rw [hrest, collapseRuns_nil]
      decide
  have hcore : slugCore value = [] := by
    rw [slugCore, hcw]
    rfl
  rw [slugifyString_eq, hcore]
  rfl

theorem slugify_fixed (l : List Char)
    (h1 : ∀ c ∈ l, isJsWs c = false)
    (h2 : ∀ c ∈ l, illegalFilenameChar c = false)
    (h3 : l.Chain' (fun a b => a = '-' → b ≠ '-'))
    (h4 : l.map Char.toLower = l)
    (h5 : l ≠ []) :
    slugifyString l = l := by
  have hcore : slugCore l = l := by
    rw [slugCore]
    rw [jsTrim_eq_self l h1]
    rw [List.filter_eq_self.mpr (fun a ha => by rw [h2 a ha]; rfl)]
    rw [collapseRuns_eq_self isJsWs ' ' l h1]
    rw [jsTrim_eq_self l h1]
    rw [collapseRuns_eq_self isJsWs '-' l h1]
    exact collapseRuns_dash_eq_self l h3
  rw [slugifyString_eq, hcore, h4, if_neg h5]

/-- C9: for every input the slug contains no illegal filename character
(`< > : double-quote / backslash | ? *`), no whitespace character and no
two consecutive dashes, and it is entirely lowercase (fixed under
`Char.toLower`); an input made only of illegal or whitespace characters
slugifies to the literal `report`. -/
theorem C9_slugify_properties (value : List Char) :
    (∀ c ∈ slugifyString value, illegalFilenameChar c = false) ∧
    (∀ c ∈ slugifyString value, isJsWs c = false) ∧
    (slugifyString value).Chain' (fun a b => a = '-' → b ≠ '-') ∧
    (slugifyString value).map Char.toLower = slugifyString value ∧
    ((∀ c ∈ value, illegalFilenameChar c = true ∨ isJsWs c = true) →
      slugifyString value = "report".toList) := by
  obtain ⟨a1, a2, a3, a4, _⟩ := slug_invariants value
  exact ⟨a1, a2, a3, a4, slug_all_bad value⟩

theorem C9_witness :
    illegalFilenameChar 's' = false ∧
    slugifyString "/\\:*?".toList = "report".toList ∧
    slugifyString "Sprint 12 / QA!".toList = "sprint-12-qa!".toList := by
  refine ⟨(C9_slugify_properties "Sprint 12 / QA!".toList).1 's' (by decide),
    (C9_slugify_properties "/\\:*?".toList).2.2.2.2 (by decide), by decide⟩

/-- C10: `slugifyString` is idempotent — slugifying an already-slugified
string returns it unchanged. -/
theorem C10_slugify_idempotent (value : List Char) :
    slugifyString (slugifyString value) = slugifyString value := by
  obtain ⟨a1, a2, a3, a4, a5⟩ := slug_invariants value
  exact slugify_fixed (slugifyString value) a2 a1 a3 a4 a5
